import Mathlib

/-!
# Verification of the repo-translate parse/inject subsystem

This file shallowly embeds the parse/inject core of the repository
(`src/parser/markdown.py`, `src/parser/python.py`, `src/parser/c_cpp.py`,
`src/parser/base.py`) into Lean 4 and proves/refutes the frozen claims
about it.

Modelling conventions:
* A Python `str` is modelled as `Str := List Char`.
* Python `dict[int, str]` is modelled as an association list
  `List (Int × Str)`; Python dict keys are unique, so theorems that depend
  on dict semantics assume `Nodup` on the key list.
* Python list indexing (`l[i]`, negative indices allowed, `IndexError` on
  out-of-range) is modelled by `pyIndex?`/`pySet?` returning `Option`;
  slice reads and slice assignment (which clamp and never raise) are
  modelled by total functions.
* Code that can raise an uncaught exception is modelled in the `Option`
  monad (`none` = exception escaped).
* The external grammar libraries (`ast_comments.parse` for Python,
  tree-sitter for C/C++) are modelled as oracles passed in as parameters:
  the oracle returns `none` exactly when the library raises inside the
  `try` block, and otherwise returns the tree data the source code reads
  off the library objects.  Everything the repository's own code does with
  that data is embedded faithfully from the source.
-/

set_option maxHeartbeats 1000000

abbrev Str := List Char

/-- The newline character used by `str.split("\n")` / `"\n".join`. -/
def nlChar : Char := '\n'

/-- `content.split("\n")` from Python: split a string on newline
characters; always returns a nonempty list. -/
def splitLines : Str → List Str
  | [] => [[]]
  | c :: cs =>
    if c = nlChar then [] :: splitLines cs
    else
      match splitLines cs with
      | [] => [[c]]
      | l :: ls => (c :: l) :: ls

/-- `"\n".join(lines)` from Python. -/
def joinLines : List Str → Str
  | [] => []
  | [l] => l
  | l :: ls => l ++ nlChar :: joinLines ls

/-- Python whitespace characters stripped by `str.strip()`. -/
def isPySpace (c : Char) : Bool :=
  c = ' ' || c = '\t' || c = '\n' || c = '\r' ||
    c = Char.ofNat 11 || c = Char.ofNat 12

/-- `s.strip()` from Python. -/
def pyStrip (s : Str) : Str :=
  ((s.dropWhile isPySpace).reverse.dropWhile isPySpace).reverse

/-- `s.lstrip(chars)` from Python. -/
def pyLStripChars (cs : Str) (s : Str) : Str :=
  s.dropWhile (fun c => cs.contains c)

/-- `s.strip(chars)` from Python. -/
def pyStripChars (cs : Str) (s : Str) : Str :=
  ((s.dropWhile (fun c => cs.contains c)).reverse.dropWhile
    (fun c => cs.contains c)).reverse

/-- Normalise a Python index against a list length: nonnegative indices
must be `< len`, negative indices address from the end; `none` models an
`IndexError`. -/
def pyNorm (len : Nat) (i : Int) : Option Nat :=
  if 0 ≤ i then (if i < (len : Int) then some i.toNat else none)
  else (if 0 ≤ (len : Int) + i then some ((len : Int) + i).toNat else none)

/-- Python `l[i]` (read). -/
def pyIndex? (l : List α) (i : Int) : Option α :=
  (pyNorm l.length i).bind fun n => l[n]?

/-- Python `l[i] = a` (write). -/
def pySet? (l : List α) (i : Int) (a : α) : Option (List α) :=
  (pyNorm l.length i).map fun n => l.set n a

/-- Clamp a Python slice bound to `[0, len]`. -/
def pySliceIdx (len : Nat) (i : Int) : Nat :=
  if i < 0 then (if (len : Int) + i < 0 then 0 else ((len : Int) + i).toNat)
  else min i.toNat len

/-- Python slice assignment `l[start:stop] = new` (never raises). -/
def pySliceAssign (l : List α) (start stop : Int) (new : List α) : List α :=
  let s := pySliceIdx l.length start
  let e := max s (pySliceIdx l.length stop)
  l.take s ++ new ++ l.drop e

/-- Python slice read `l[start:stop]`. -/
def pySliceGet (l : List α) (start stop : Int) : List α :=
  let s := pySliceIdx l.length start
  let e := pySliceIdx l.length stop
  (l.take e).drop s

/-- Helper for `str.find`: first index (counting from `i`) where `needle`
is a prefix of the remaining haystack. -/
def strFindAux (needle : Str) : Str → Nat → Option Nat
  | [], i => if needle.isPrefixOf ([] : Str) then some i else none
  | c :: t, i =>
    if needle.isPrefixOf (c :: t) then some i else strFindAux needle t (i + 1)

/-- Python `hay.find(needle)`: first index of `needle` in `hay`, `-1` when
absent. -/
def strFind (hay needle : Str) : Int :=
  match strFindAux needle hay 0 with
  | some n => (n : Int)
  | none => -1

/-- Python `needle in hay` (substring test). -/
def strContains (hay needle : Str) : Bool :=
  (strFindAux needle hay 0).isSome

/-! ## Span model (src/parser/base.py) -/

/-- `CommentType` from `base.py`. -/
inductive CommentType where
  | singleLine
  | multiLine
  | docstring
  | jsdoc
  | docComment
deriving DecidableEq, Repr

/-- `Comment` from `base.py`.  Line/column fields are Python ints. -/
structure Comment where
  text : Str
  type : CommentType
  lineStart : Int
  lineEnd : Int
  columnStart : Int
  columnEnd : Int
  original : Str
deriving DecidableEq, Repr

/-- Construct a `Comment` applying the `__post_init__` rule: an empty
`original` defaults to `text`. -/
def mkComment (text : Str) (ty : CommentType) (ls le cs ce : Int)
    (orig : Str) : Comment :=
  ⟨text, ty, ls, le, cs, ce, if orig = [] then text else orig⟩

/-- `TextBlock` from `base.py`. -/
structure TextBlock where
  text : Str
  lineStart : Int
  lineEnd : Int
  isCode : Bool
  codeLanguage : Str
  original : Str
deriving DecidableEq, Repr

/-- Construct a `TextBlock` applying the `__post_init__` rule: an empty
`original` defaults to `text`. -/
def mkTextBlock (text : Str) (ls le : Int) (isCode : Bool) (lang : Str)
    (orig : Str) : TextBlock :=
  ⟨text, ls, le, isCode, lang, if orig = [] then text else orig⟩

/-- `ParseResult` from `base.py` (the `file_path` field carries no
behaviour used by the claims and is omitted). -/
structure ParseResult where
  comments : List Comment
  textBlocks : List TextBlock
  rawContent : Str
deriving DecidableEq, Repr

/-! ## Sorting helpers

`result.comments.sort(key=lambda c: c.line_start)` (stable ascending sort)
and `sorted(translations.keys(), reverse=True)` (descending key sort) are
modelled by insertion sorts. -/

/-- Stable insert for the ascending sort by `line_start`. -/
def insLS (c : Comment) : List Comment → List Comment
  | [] => [c]
  | d :: ds => if d.lineStart ≤ c.lineStart then d :: insLS c ds else c :: d :: ds

/-- Stable ascending sort by `line_start` (Python `list.sort(key=...)`). -/
def sortLS (l : List Comment) : List Comment :=
  l.foldl (fun acc c => insLS c acc) []

/-- Insert for the descending sort of translation keys. -/
def insDesc (x : Int) : List Int → List Int
  | [] => [x]
  | y :: ys => if x ≤ y then y :: insDesc x ys else x :: y :: ys

/-- `sorted(keys, reverse=True)`: descending sort of the key list. -/
def sortDesc : List Int → List Int
  | [] => []
  | k :: ks => insDesc k (sortDesc ks)

/-! ## Markdown parser (src/parser/markdown.py) -/

/-- Python `\w` word characters (ASCII fragment, which covers every
language tag the grammar of the claims uses). -/
def isWordChar (c : Char) : Bool := c.isAlphanum || c = '_'

/-- `re.match(r"^```(\w*)", line)`: `some tag` when the line opens or
closes a fence, carrying the captured language tag. -/
def mdFence (line : Str) : Option Str :=
  if ("```".data).isPrefixOf line then some ((line.drop 3).takeWhile isWordChar)
  else none

/-- Minimal `k ≥ 1` such that `-->` starts at offset `k` of `rest`
(the lazy `(.+?)-->` search). -/
def findCloseAux : Nat → Nat → Str → Option Nat
  | 0, _, _ => none
  | fuel + 1, k, rest =>
    if ("-->".data).isPrefixOf (rest.drop k) then some k
    else findCloseAux fuel (k + 1) rest

/-- Minimal nonempty lazy match distance for `(.+?)-->`. -/
def findClose (rest : Str) : Option Nat := findCloseAux rest.length 1 rest

/-- `re.findall(r"<!--(.+?)-->", line)`: captured inner texts of all
HTML comments on the line, scanning left to right. -/
def findHtmlAux : Nat → Str → List Str
  | 0, _ => []
  | fuel + 1, s =>
    if ("<!--".data).isPrefixOf s then
      match findClose (s.drop 4) with
      | some k => (s.drop 4).take k :: findHtmlAux fuel (s.drop (4 + k + 3))
      | none =>
        match s with
        | [] => []
        | _ :: t => findHtmlAux fuel t
    else
      match s with
      | [] => []
      | _ :: t => findHtmlAux fuel t

/-- All HTML-comment captures on one line. -/
def findHtml (s : Str) : List Str := findHtmlAux s.length s

/-- The scan state of `MarkdownParser.parse`'s line loop. -/
structure MdState where
  inCodeBlock : Bool
  codeLang : Str
  cur : List Str
  blockStart : Nat
  comments : List Comment
  textBlocks : List TextBlock
deriving Repr

/-- One iteration of the `for i, line in enumerate(lines, 1)` loop of
`MarkdownParser.parse`. -/
def mdStep (i : Nat) (line : Str) (s : MdState) : MdState :=
  match mdFence line with
  | some tag =>
    if s.inCodeBlock then
      if s.cur ≠ [] then
        { s with
          textBlocks := s.textBlocks ++
            [mkTextBlock (joinLines s.cur) (s.blockStart : Int)
              ((i : Int) - 1) true s.codeLang []]
          cur := []
          inCodeBlock := false }
      else { s with inCodeBlock := false }
    else
      let s' :=
        if s.cur ≠ [] then
          { s with
            textBlocks := s.textBlocks ++
              [mkTextBlock (joinLines s.cur) (s.blockStart : Int)
                ((i : Int) - 1) false [] []]
            cur := [] }
        else s
      { s' with inCodeBlock := true, codeLang := tag, blockStart := i }
  | none =>
    if s.inCodeBlock then { s with cur := s.cur ++ [line] }
    else
      let cs := s.comments ++ (findHtml line).map fun t =>
        mkComment (pyStrip t) .multiLine (i : Int) (i : Int) 0 0 []
      if s.cur = [] then { s with comments := cs, cur := [line], blockStart := i }
      else { s with comments := cs, cur := s.cur ++ [line] }

/-- The full line loop of `MarkdownParser.parse`. -/
def mdScan : Nat → List Str → MdState → MdState
  | _, [], s => s
  | i, l :: ls, s => mdScan (i + 1) ls (mdStep i l s)

/-- `MarkdownParser.parse`. -/
def mdParse (content : Str) : ParseResult :=
  let lines := splitLines content
  let s := mdScan 1 lines ⟨false, [], [], 0, [], []⟩
  let s' :=
    if s.cur ≠ [] then
      { s with
        textBlocks := s.textBlocks ++
          [mkTextBlock (joinLines s.cur) (s.blockStart : Int)
            (lines.length : Int) s.inCodeBlock
            (if s.inCodeBlock then s.codeLang else []) []] }
    else s
  ⟨s'.comments, s'.textBlocks, content⟩

/-- The body of `MarkdownParser.inject_translations`' loop for one index. -/
def mdInjectStep (tr : List (Int × Str)) (pr : ParseResult)
    (lines : List Str) (idx : Int) : Option (List Str) :=
  if (pr.textBlocks.length : Int) ≤ idx then some lines
  else do
    let block ← pyIndex? pr.textBlocks idx
    if block.isCode then pure lines
    else do
      let t ← List.lookup idx tr
      pure (pySliceAssign lines (block.lineStart - 1) block.lineEnd
        (splitLines t))

/-- `MarkdownParser.inject_translations` (`none` models an uncaught
`IndexError`). -/
def mdInject (content : Str) (tr : List (Int × Str)) (pr : ParseResult) :
    Option Str :=
  ((sortDesc (tr.map Prod.fst)).foldlM (mdInjectStep tr pr)
    (splitLines content)).map joinLines

/-! ## Python parser (src/parser/python.py)

The external `ast_comments` library is modelled as an oracle
`Str → Option PyAstInfo`: `none` models `astc.parse` raising
`SyntaxError`; `some info` carries exactly the node data the source walks
off the tree (the `Comment` nodes and the docstring expression nodes that
pass the `FunctionDef`/`AsyncFunctionDef`/`ClassDef`/`Module` +
first-body-statement-string checks, in `ast.walk` order). -/

/-- A `Comment` node produced by `ast_comments` (`node.value` is the raw
`# ...` text). -/
structure PyCommentNode where
  value : Str
  lineno : Int
  colOffset : Int
deriving Repr

/-- A docstring constant node (`node.body[0].value` of a module, class or
function whose `ast.get_docstring` is non-empty), together with the
cleaned docstring `ast.get_docstring` returned. -/
structure PyDocNode where
  docstring : Str
  lineno : Int
  endLineno : Int
  colOffset : Int
  endColOffset : Int
deriving Repr

/-- Everything `PythonParser.parse` reads off the `ast_comments` tree. -/
structure PyAstInfo where
  commentNodes : List PyCommentNode
  docstringNodes : List PyDocNode
deriving Repr

/-- Three double quotes. -/
def dq3 : Str := "\"\"\"".data

/-- A single-quote character, and three of them (written via `Char.ofNat`
to keep the file free of quote-character literals). -/
def sqChar : Char := Char.ofNat 39

/-- Three single quotes. -/
def sq3 : Str := [sqChar, sqChar, sqChar]

/-- `PythonParser._detect_quote_style`. -/
def detectQuoteStyle (content docstring : Str) : Str :=
  let pos := strFind content docstring
  if pos ≤ 0 then dq3
  else
    let before := pySliceGet content (max 0 (pos - 10)) pos
    if strContains before dq3 then dq3 else sq3

/-- The `Comment` built for one `ast_comments` comment node
(`python.py` lines 54-75; both branches of the inline test assign
`SINGLE_LINE`). -/
def pyCommentOfNode (n : PyCommentNode) : Comment :=
  mkComment (pyStrip (pyLStripChars ['#'] n.value)) .singleLine
    n.lineno n.lineno n.colOffset (n.colOffset + n.value.length) n.value

/-- The `Comment` built for one docstring node (`python.py` lines 83-101),
including the `end_lineno or lineno` fallback. -/
def pyDocCommentOfNode (content : Str) (n : PyDocNode) : Comment :=
  let q := detectQuoteStyle content n.docstring
  mkComment n.docstring .docstring n.lineno
    (if n.endLineno = 0 then n.lineno else n.endLineno)
    n.colOffset n.endColOffset (q ++ n.docstring ++ q)

/-- `PythonParser.parse` (the `ast_comments` path; `oracle content = none`
models `astc.parse` raising `SyntaxError`). -/
def pythonParse (oracle : Str → Option PyAstInfo) (content : Str) :
    ParseResult :=
  match oracle content with
  | none => ⟨[], [], content⟩
  | some info =>
    let commentComments := info.commentNodes.map pyCommentOfNode
    let docComments := info.docstringNodes.map (pyDocCommentOfNode content)
    ⟨sortLS (commentComments ++ docComments), [], content⟩

/-- Leading run of spaces and tabs (the `for char in line: if char in
" \t"` indent loops). -/
def takeIndent (l : Str) : Str := l.takeWhile fun c => c = ' ' || c = '\t'

/-- The body of `PythonParser.inject_translations`' loop for one index. -/
def pythonInjectStep (tr : List (Int × Str)) (pr : ParseResult)
    (lines : List Str) (idx : Int) : Option (List Str) :=
  if (pr.comments.length : Int) ≤ idx then some lines
  else do
    let comment ← pyIndex? pr.comments idx
    let translated ← List.lookup idx tr
    let startLine := comment.lineStart - 1
    let endLine := comment.lineEnd - 1
    match comment.type with
    | .singleLine => do
      let originalLine ← pyIndex? lines startLine
      let hashPos := strFind originalLine ['#']
      if hashPos = -1 then pure lines
      else
        let indent := pySliceGet originalLine 0 (hashPos + 1)
        pySet? lines startLine (indent ++ ' ' :: translated)
    | .docstring =>
      let quote := if strContains comment.original dq3 then dq3 else sq3
      if startLine = endLine then do
        let line ← pyIndex? lines startLine
        let indent := takeIndent line
        pySet? lines startLine (indent ++ quote ++ translated ++ quote)
      else do
        let firstLine ← pyIndex? lines startLine
        let indent := takeIndent firstLine
        let newLines := (indent ++ quote) ::
          ((splitLines translated).map fun tl => indent ++ "    ".data ++ tl)
          ++ [indent ++ quote]
        pure (pySliceAssign lines startLine (endLine + 1) newLines)
    | .multiLine =>
      pure (pySliceAssign lines startLine (endLine + 1)
        (splitLines translated))
    | _ => pure lines

/-- `PythonParser.inject_translations` (`none` models an uncaught
`IndexError`). -/
def pythonInject (content : Str) (tr : List (Int × Str))
    (pr : ParseResult) : Option Str :=
  ((sortDesc (tr.map Prod.fst)).foldlM (pythonInjectStep tr pr)
    (splitLines content)).map joinLines

/-! ## C/C++ parser (src/parser/c_cpp.py)

The tree-sitter tree is modelled as an inductive tree carrying the fields
the source reads (`node.type`, `node.text` already decoded,
`node.start_point`, `node.end_point`, `node.children`).  The oracle
`Str → Option TSNode` returns `none` when anything inside the `try` block
raises (caught by `except Exception: pass`), and the parsed root node
otherwise. -/

/-- A tree-sitter node as seen by `CCppParser._extract_comments`. -/
inductive TSNode where
  | node (type : Str) (text : Str) (startRow startCol endRow endCol : Nat)
      (children : List TSNode)

/-- `CCppParser._clean_comment_text`. -/
def cleanCommentText (comment : Str) (ty : CommentType) : Str :=
  match ty with
  | .singleLine => pyStrip (pyLStripChars ['/'] comment)
  | .docComment =>
    if ("///".data).isPrefixOf comment then
      pyStrip (pyStripChars ['/'] comment)
    else
      let text := pyStripChars "*/".data (pyStripChars "/*".data comment)
      let cleaned := (splitLines text).map fun line =>
        let l := pyStrip line
        if ("*".data).isPrefixOf l then pyStrip (l.drop 1) else l
      pyStrip (joinLines cleaned)
  | .multiLine =>
    let text := pyStripChars "*/".data (pyStripChars "/*".data comment)
    let cleaned := (splitLines text).map fun line =>
      let l := pyStrip line
      if ("*".data).isPrefixOf l then pyStrip (l.drop 1) else l
    pyStrip (joinLines cleaned)
  | _ => comment

/-- Comment classification by marker prefix
(`c_cpp.py` lines 40-47). -/
def ccppClassify (text : Str) : CommentType :=
  if ("/**".data).isPrefixOf text || ("/*!".data).isPrefixOf text then
    .docComment
  else if ("///".data).isPrefixOf text then .docComment
  else if ("/*".data).isPrefixOf text then .multiLine
  else .singleLine

/-- The `Comment` appended for one tree-sitter comment node. -/
def ccppCommentOfNode (text : Str) (sr sc er ec : Nat) : Comment :=
  let ty := ccppClassify text
  mkComment (cleanCommentText text ty) ty ((sr : Int) + 1) ((er : Int) + 1)
    (sc : Int) (ec : Int) text

mutual

/-- `CCppParser._extract_comments`: preorder collection of the `Comment`s
for every node with `type == "comment"`. -/
def ccppExtract : TSNode → List Comment
  | .node ty tx sr sc er ec ch =>
    (if ty = "comment".data then [ccppCommentOfNode tx sr sc er ec] else [])
      ++ ccppExtractList ch

/-- `ccppExtract` mapped over a child list. -/
def ccppExtractList : List TSNode → List Comment
  | [] => []
  | n :: ns => ccppExtract n ++ ccppExtractList ns

end

/-- `CCppParser.parse` (`oracle content = none` models any exception in
the `try` block, swallowed by `except Exception: pass`). -/
def ccppParse (oracle : Str → Option TSNode) (content : Str) : ParseResult :=
  match oracle content with
  | none => ⟨sortLS [], [], content⟩
  | some root => ⟨sortLS (ccppExtract root), [], content⟩

/-- The body of `CCppParser.inject_translations`' loop for one index. -/
def ccppInjectStep (tr : List (Int × Str)) (pr : ParseResult)
    (lines : List Str) (idx : Int) : Option (List Str) :=
  if (pr.comments.length : Int) ≤ idx then some lines
  else do
    let comment ← pyIndex? pr.comments idx
    let translated ← List.lookup idx tr
    let startLine := comment.lineStart - 1
    let endLine := comment.lineEnd - 1
    match comment.type with
    | .singleLine => do
      let originalLine ← pyIndex? lines startLine
      let slashPos := strFind originalLine "//".data
      let indent := pySliceGet originalLine 0 slashPos
      pySet? lines startLine (indent ++ "// ".data ++ translated)
    | .docComment => do
      let firstLine ← pyIndex? lines startLine
      let indent := takeIndent firstLine
      if ("///".data).isPrefixOf comment.original then
        let transLines := splitLines translated
        let newLines := transLines.map fun l => indent ++ "/// ".data ++ l
        pure (pySliceAssign lines startLine (endLine + 1) newLines)
      else
        let transLines := splitLines translated
        if transLines.length = 1 then
          pySet? lines startLine
            (indent ++ "/** ".data ++ translated ++ " */".data)
        else
          let newLines := (indent ++ "/**".data) ::
            (transLines.map fun l => indent ++ " * ".data ++ l)
            ++ [indent ++ " */".data]
          pure (pySliceAssign lines startLine (endLine + 1) newLines)
    | .multiLine => do
      let firstLine ← pyIndex? lines startLine
      let indent := takeIndent firstLine
      let transLines := splitLines translated
      if transLines.length = 1 then
        pySet? lines startLine
          (indent ++ "/* ".data ++ translated ++ " */".data)
      else
        let newLines := (indent ++ "/*".data) ::
          (transLines.map fun l => indent ++ "   ".data ++ l)
          ++ [indent ++ " */".data]
        pure (pySliceAssign lines startLine (endLine + 1) newLines)
    | _ => pure lines

/-- `CCppParser.inject_translations` (`none` models an uncaught
`IndexError`). -/
def ccppInject (content : Str) (tr : List (Int × Str))
    (pr : ParseResult) : Option Str :=
  ((sortDesc (tr.map Prod.fst)).foldlM (ccppInjectStep tr pr)
    (splitLines content)).map joinLines


/-! ## Further definitions used by the claims -/

/-- Modelled from the spec: "quote style (three double quotes vs three
single quotes) is detected by
inspecting the ~10 characters immediately preceding the string's start
offset in the original text and defaults to `"""` if undetermined."
This is the refinement reading of claim C2, to be compared with the
source's `detectQuoteStyle` (which searches from the first occurrence of
the docstring text instead of the string's own start offset). -/
def specQuoteStyle (content : Str) (startOffset : Nat) : Str :=
  let before := pySliceGet content (max 0 ((startOffset : Int) - 10))
    (startOffset : Int)
  if strContains before dq3 then dq3
  else if strContains before sq3 then sq3
  else dq3

/-- The HTML-comment `Comment`s appended by the markdown scan for a run of
prose lines starting at line number `i`. -/
def htmlAll : Nat -> List Str -> List Comment
  | _, [] => []
  | i, l :: ls =>
    ((findHtml l).map fun t =>
      mkComment (pyStrip t) .multiLine (i : Int) (i : Int) 0 0 []) ++
    htmlAll (i + 1) ls

mutual

/-- The raw texts of the comment-typed tree-sitter nodes, in the same
preorder as `ccppExtract`. -/
def ccppNodeTexts : TSNode -> List Str
  | .node ty tx _ _ _ _ ch =>
    (if ty = "comment".data then [tx] else []) ++ ccppNodeTextsList ch

/-- `ccppNodeTexts` mapped over a child list. -/
def ccppNodeTextsList : List TSNode -> List Str
  | [] => []
  | n :: ns => ccppNodeTexts n ++ ccppNodeTextsList ns

end

/-! ## General lemmas -/

theorem splitLines_ne_nil (s : Str) : splitLines s ≠ [] := by
  induction s with
  | nil => simp [splitLines]
  | cons c cs ih =>
    simp only [splitLines]
    split
    · simp
    · cases h : splitLines cs with
      | nil => simp
      | cons l ls => simp

/-- Joining the split lines reproduces the original string
(`"\n".join(s.split("\n")) == s`). -/
theorem joinLines_splitLines (s : Str) : joinLines (splitLines s) = s := by
  induction s with
  | nil => simp [splitLines, joinLines]
  | cons c cs ih =>
    simp only [splitLines]
    split
    · rename_i h
      cases hs : splitLines cs with
      | nil => exact absurd hs (splitLines_ne_nil cs)
      | cons l ls =>
        subst h
        simp only [joinLines]
        rw [hs] at ih
        simpa [joinLines] using congrArg (nlChar :: ·) ih
    · cases hs : splitLines cs with
      | nil => exact absurd hs (splitLines_ne_nil cs)
      | cons l ls =>
        rw [hs] at ih
        cases ls with
        | nil => simp_all [joinLines]
        | cons l' ls' => simp_all [joinLines]

/-- Splitting a join of newline-free lines recovers the lines. -/
theorem splitLines_joinLines (L : List Str) (hne : L ≠ [])
    (h : ∀ l ∈ L, nlChar ∉ l) : splitLines (joinLines L) = L := by
  induction L with
  | nil => exact absurd rfl hne
  | cons l ls ih =>
    cases ls with
    | nil =>
      simp only [joinLines]
      have hl : nlChar ∉ l := h l (by simp)
      clear ih hne h
      induction l with
      | nil => simp [splitLines]
      | cons c cs ihc =>
        simp only [splitLines]
        have hc : ¬ c = nlChar := by
          intro hc; exact hl (by simp [hc])
        rw [if_neg hc]
        have := ihc (by intro hm; exact hl (by simp [hm]))
        rw [this]
    | cons l' ls' =>
      have hl : nlChar ∉ l := h l (by simp)
      have hrest : splitLines (joinLines (l' :: ls')) = l' :: ls' := by
        apply ih (by simp)
        intro x hx; exact h x (by simp [hx])
      simp only [joinLines]
      clear ih hne h
      induction l with
      | nil =>
        simp only [List.nil_append, splitLines, if_pos rfl]
        rw [hrest]
        simp
      | cons c cs ihc =>
        simp only [List.cons_append, splitLines]
        have hc : ¬ c = nlChar := by
          intro hc; exact hl (by simp [hc])
        rw [if_neg hc]
        have := ihc (by intro hm; exact hl (by simp [hm]))
        simp only [List.append_eq] at this ⊢
        rw [this]


/-! ## Sorting lemmas -/

theorem insDesc_perm (x : Int) (l : List Int) :
    List.Perm (insDesc x l) (x :: l) := by
  induction l with
  | nil => simp only [insDesc]; exact List.Perm.refl _
  | cons y ys ih =>
    simp only [insDesc]
    split
    · exact List.Perm.trans (List.Perm.cons y ih) (List.Perm.swap x y ys)
    · exact List.Perm.refl _

theorem sortDesc_perm (l : List Int) : List.Perm (sortDesc l) l := by
  induction l with
  | nil => exact List.Perm.refl _
  | cons k ks ih =>
    exact List.Perm.trans (insDesc_perm k (sortDesc ks)) (List.Perm.cons k ih)

theorem mem_insDesc {a x : Int} {l : List Int} :
    a ∈ insDesc x l ↔ a = x ∨ a ∈ l := by
  rw [(insDesc_perm x l).mem_iff]
  simp

theorem insDesc_pairwise {x : Int} {l : List Int}
    (h : l.Pairwise (fun a b => b ≤ a)) :
    (insDesc x l).Pairwise (fun a b => b ≤ a) := by
  induction l with
  | nil => simp [insDesc]
  | cons y ys ih =>
    rw [List.pairwise_cons] at h
    obtain ⟨hy, hys⟩ := h
    simp only [insDesc]
    split
    · rename_i hxy
      rw [List.pairwise_cons]
      refine ⟨?_, ih hys⟩
      intro z hz
      rcases mem_insDesc.mp hz with rfl | hz
      · exact hxy
      · exact hy z hz
    · rename_i hxy
      rw [List.pairwise_cons]
      refine ⟨?_, List.Pairwise.cons hy hys⟩
      intro z hz
      rcases List.mem_cons.mp hz with rfl | hz
      · omega
      · exact le_trans (hy z hz) (by omega)

theorem sortDesc_pairwise (l : List Int) :
    (sortDesc l).Pairwise (fun a b => b ≤ a) := by
  induction l with
  | nil => simp [sortDesc]
  | cons k ks ih => exact insDesc_pairwise ih

theorem sortDesc_filter (p : Int → Bool) (l : List Int) :
    sortDesc (l.filter p) = (sortDesc l).filter p := by
  haveI : IsAntisymm Int (fun a b : Int => b ≤ a) :=
    ⟨fun a b h1 h2 => le_antisymm h2 h1⟩
  have hp : List.Perm (sortDesc (l.filter p)) ((sortDesc l).filter p) :=
    List.Perm.trans (sortDesc_perm _)
      (List.Perm.filter p (List.Perm.symm (sortDesc_perm l)))
  exact List.eq_of_perm_of_sorted hp (sortDesc_pairwise _)
    ((sortDesc_pairwise l).filter p)

theorem insLS_perm (c : Comment) (l : List Comment) :
    List.Perm (insLS c l) (c :: l) := by
  induction l with
  | nil => simp only [insLS]; exact List.Perm.refl _
  | cons d ds ih =>
    simp only [insLS]
    split
    · exact List.Perm.trans (List.Perm.cons d ih) (List.Perm.swap c d ds)
    · exact List.Perm.refl _

theorem foldl_insLS_perm (l : List Comment) :
    ∀ acc : List Comment,
      List.Perm (l.foldl (fun acc c => insLS c acc) acc) (l ++ acc) := by
  induction l with
  | nil => intro acc; exact List.Perm.refl _
  | cons c ls ih =>
    intro acc
    simp only [List.foldl_cons, List.cons_append]
    exact List.Perm.trans (ih (insLS c acc))
      (List.Perm.trans (List.Perm.append_left ls (insLS_perm c acc))
        List.perm_middle)

theorem sortLS_perm (l : List Comment) : List.Perm (sortLS l) l := by
  have := foldl_insLS_perm l []
  simpa [sortLS] using this

theorem mem_sortLS {c : Comment} {l : List Comment} :
    c ∈ sortLS l ↔ c ∈ l := (sortLS_perm l).mem_iff

/-! ## Lookup and fold lemmas -/

theorem lookup_filter (tr : List (Int × Str)) (p : Int → Bool) (k : Int)
    (hk : p k = true) :
    List.lookup k (tr.filter fun kv => p kv.1) = List.lookup k tr := by
  induction tr with
  | nil => simp
  | cons a t ih =>
    obtain ⟨a1, a2⟩ := a
    by_cases hp : p a1
    · rw [List.filter_cons_of_pos (by simpa using hp)]
      cases hke : (k == a1) with
      | true => simp only [List.lookup, hke]
      | false => simp only [List.lookup, hke]; exact ih
    · rw [List.filter_cons_of_neg (by simpa using hp)]
      have hke : (k == a1) = false := by
        apply beq_eq_false_iff_ne.mpr
        rintro rfl
        rw [hk] at hp
        exact hp rfl
      simp only [List.lookup, hke]
      exact ih

theorem lookup_of_mem_keys (tr : List (Int × Str)) (k : Int)
    (h : k ∈ tr.map Prod.fst) : ∃ v, List.lookup k tr = some v := by
  induction tr with
  | nil => simp at h
  | cons a t ih =>
    obtain ⟨a1, a2⟩ := a
    simp only [List.map_cons, List.mem_cons] at h
    cases hke : (k == a1) with
    | true => exact ⟨a2, by simp only [List.lookup, hke]⟩
    | false =>
      rcases h with rfl | h
      · rw [beq_self_eq_true] at hke; cases hke
      · rcases ih h with ⟨v, hv⟩
        exact ⟨v, by simp only [List.lookup, hke]; exact hv⟩

theorem map_fst_filter (tr : List (Int × Str)) (p : Int → Bool) :
    (tr.filter fun kv => p kv.1).map Prod.fst =
      (tr.map Prod.fst).filter p := by
  induction tr with
  | nil => simp
  | cons a t ih =>
    by_cases hp : p a.1
    · rw [List.filter_cons_of_pos (by simpa using hp)]
      simp only [List.map_cons]
      rw [List.filter_cons_of_pos (by simpa using hp)]
      simp [ih]
    · rw [List.filter_cons_of_neg (by simpa using hp)]
      simp only [List.map_cons]
      rw [List.filter_cons_of_neg (by simpa using hp)]
      exact ih

theorem foldlM_noop {β : Type} (step : β → Int → Option β) (l : List Int)
    (h : ∀ b k, k ∈ l → step b k = some b) (b : β) :
    List.foldlM step b l = some b := by
  induction l generalizing b with
  | nil => rfl
  | cons a t ih =>
    rw [List.foldlM_cons, h b a (by simp)]
    exact ih (fun b k hk => h b k (by simp [hk])) b

theorem foldlM_filter_skip {β : Type} (step : β → Int → Option β)
    (p : Int → Bool) (h : ∀ b k, p k = false → step b k = some b)
    (l : List Int) (b : β) :
    List.foldlM step b l = List.foldlM step b (l.filter p) := by
  induction l generalizing b with
  | nil => rfl
  | cons a t ih =>
    by_cases hp : p a
    · rw [List.filter_cons_of_pos hp, List.foldlM_cons, List.foldlM_cons]
      cases hs : step b a with
      | none => rfl
      | some b' => simpa using ih b'
    · rw [List.filter_cons_of_neg (by simpa using hp), List.foldlM_cons,
        h b a (by simpa using hp)]
      simpa using ih b

theorem foldlM_single {β : Type} (step : β → Int → Option β) (k₀ : Int)
    (l : List Int) (hnd : l.Nodup)
    (h : ∀ b k, k ∈ l → k ≠ k₀ → step b k = some b) (b : β) :
    List.foldlM step b l = if k₀ ∈ l then step b k₀ else some b := by
  induction l generalizing b with
  | nil => simp
  | cons a t ih =>
    rw [List.nodup_cons] at hnd
    obtain ⟨hna, hnd'⟩ := hnd
    by_cases ha : a = k₀
    · subst ha
      rw [List.foldlM_cons, if_pos (List.mem_cons_self a t)]
      cases hs : step b a with
      | none => rfl
      | some b' =>
        show List.foldlM step b' t = some b'
        exact foldlM_noop step t
          (fun b k hk => h b k (List.mem_cons_of_mem _ hk)
            (fun he => hna (he ▸ hk))) b'
    · rw [List.foldlM_cons, h b a (List.mem_cons_self a t) ha]
      show List.foldlM step b t = _
      rw [ih hnd' (fun b k hk hne => h b k (List.mem_cons_of_mem _ hk) hne) b]
      by_cases hm : k₀ ∈ t
      · rw [if_pos hm, if_pos (List.mem_cons_of_mem a hm)]
      · rw [if_neg hm, if_neg ?_]
        intro hc
        rcases List.mem_cons.mp hc with he | hc
        · exact ha he.symm
        · exact hm hc

/-! ## Python indexing lemmas -/

theorem pyNorm_nat (len n : Nat) (h : n < len) : pyNorm len n = some n := by
  simp only [pyNorm]
  rw [if_pos (by omega), if_pos (by omega)]
  congr 1

theorem pyNorm_neg (len k : Nat) (h1 : 1 ≤ k) (h2 : k ≤ len) :
    pyNorm len (-(k : Int)) = some (len - k) := by
  simp only [pyNorm]
  rw [if_neg (by omega), if_pos (by omega)]
  congr 1
  omega

theorem pyIndex?_nat {α : Type} (l : List α) (n : Nat) (h : n < l.length) :
    pyIndex? l (n : Int) = l[n]? := by
  simp [pyIndex?, pyNorm_nat l.length n h]

theorem pyIndex?_neg {α : Type} (l : List α) (k : Nat) (h1 : 1 ≤ k)
    (h2 : k ≤ l.length) :
    pyIndex? l (-(k : Int)) = l[l.length - k]? := by
  simp [pyIndex?, pyNorm_neg l.length k h1 h2]

theorem pySet?_nat {α : Type} (l : List α) (n : Nat) (h : n < l.length)
    (a : α) : pySet? l (n : Int) a = some (l.set n a) := by
  simp [pySet?, pyNorm_nat l.length n h]

theorem pySliceIdx_nat (len n : Nat) (h : n ≤ len) :
    pySliceIdx len (n : Int) = n := by
  simp only [pySliceIdx]
  rw [if_neg (by omega)]
  omega

theorem pySliceAssign_nat {α : Type} (l : List α) (s e : Nat)
    (new : List α) (hs : s ≤ e) (he : e ≤ l.length) :
    pySliceAssign l (s : Int) (e : Int) new =
      l.take s ++ new ++ l.drop e := by
  simp only [pySliceAssign]
  rw [pySliceIdx_nat _ s (by omega), pySliceIdx_nat _ e he]
  rw [Nat.max_eq_right hs]

/-! ## Markdown scan lemmas -/

theorem mdStep_prose_cons (i : Nat) (line : Str) (s : MdState)
    (h1 : s.inCodeBlock = false) (h2 : s.cur ≠ [])
    (hf : mdFence line = none) :
    mdStep i line s = { s with
      comments := s.comments ++ ((findHtml line).map fun t =>
        mkComment (pyStrip t) .multiLine (i : Int) (i : Int) 0 0 []),
      cur := s.cur ++ [line] } := by
  simp [mdStep, hf, h1, h2]

theorem mdStep_prose_nil (i : Nat) (line : Str) (s : MdState)
    (h1 : s.inCodeBlock = false) (h2 : s.cur = [])
    (hf : mdFence line = none) :
    mdStep i line s = { s with
      comments := s.comments ++ ((findHtml line).map fun t =>
        mkComment (pyStrip t) .multiLine (i : Int) (i : Int) 0 0 []),
      cur := [line], blockStart := i } := by
  simp [mdStep, hf, h1, h2]

theorem mdStep_code (i : Nat) (line : Str) (s : MdState)
    (h1 : s.inCodeBlock = true) (hf : mdFence line = none) :
    mdStep i line s = { s with cur := s.cur ++ [line] } := by
  simp [mdStep, hf, h1]

theorem mdStep_fence_open_cons (i : Nat) (line : Str) (s : MdState)
    (tag : Str) (h1 : s.inCodeBlock = false) (h2 : s.cur ≠ [])
    (hf : mdFence line = some tag) :
    mdStep i line s = { s with
      textBlocks := s.textBlocks ++
        [mkTextBlock (joinLines s.cur) (s.blockStart : Int) ((i : Int) - 1)
          false [] []],
      cur := [], inCodeBlock := true, codeLang := tag, blockStart := i } := by
  simp [mdStep, hf, h1, h2]

theorem mdStep_fence_open_nil (i : Nat) (line : Str) (s : MdState)
    (tag : Str) (h1 : s.inCodeBlock = false) (h2 : s.cur = [])
    (hf : mdFence line = some tag) :
    mdStep i line s =
      { s with inCodeBlock := true, codeLang := tag, blockStart := i } := by
  simp [mdStep, hf, h1, h2]

theorem mdStep_fence_close_cons (i : Nat) (line : Str) (s : MdState)
    (tag : Str) (h1 : s.inCodeBlock = true) (h2 : s.cur ≠ [])
    (hf : mdFence line = some tag) :
    mdStep i line s = { s with
      textBlocks := s.textBlocks ++
        [mkTextBlock (joinLines s.cur) (s.blockStart : Int) ((i : Int) - 1)
          true s.codeLang []],
      cur := [], inCodeBlock := false } := by
  simp [mdStep, hf, h1, h2]

theorem mdScan_append (xs : List Str) :
    ∀ (ys : List Str) (i : Nat) (s : MdState),
      mdScan i (xs ++ ys) s = mdScan (i + xs.length) ys (mdScan i xs s) := by
  induction xs with
  | nil => intro ys i s; simp [mdScan]
  | cons x xs ih =>
    intro ys i s
    simp only [List.cons_append, mdScan, List.length_cons, List.append_eq]
    rw [ih]
    rw [show i + 1 + xs.length = i + (xs.length + 1) from by omega]

theorem mdScan_prose (ls : List Str) :
    ∀ (i : Nat) (s : MdState), s.inCodeBlock = false → s.cur ≠ [] →
      (∀ l ∈ ls, mdFence l = none) →
      mdScan i ls s = { s with
        comments := s.comments ++ htmlAll i ls,
        cur := s.cur ++ ls } := by
  induction ls with
  | nil => intro i s _ _ _; simp [mdScan, htmlAll]
  | cons l ls ih =>
    intro i s h1 h2 h3
    simp only [mdScan]
    rw [mdStep_prose_cons i l s h1 h2 (h3 l (by simp))]
    rw [ih (i + 1)]
    · simp [htmlAll]
    · simp [h1]
    · simp [h2]
    · exact fun x hx => h3 x (by simp [hx])

theorem mdScan_prose_nil (l : Str) (ls : List Str) (i : Nat) (s : MdState)
    (h1 : s.inCodeBlock = false) (h2 : s.cur = [])
    (h3 : ∀ x ∈ l :: ls, mdFence x = none) :
    mdScan i (l :: ls) s = { s with
      comments := s.comments ++ htmlAll i (l :: ls),
      cur := l :: ls, blockStart := i } := by
  simp only [mdScan]
  rw [mdStep_prose_nil i l s h1 h2 (h3 l (by simp))]
  rw [mdScan_prose ls (i + 1)]
  · simp [htmlAll]
  · simp [h1]
  · simp
  · exact fun x hx => h3 x (by simp [hx])

theorem mdScan_code (ls : List Str) :
    ∀ (i : Nat) (s : MdState), s.inCodeBlock = true →
      (∀ l ∈ ls, mdFence l = none) →
      mdScan i ls s = { s with cur := s.cur ++ ls } := by
  induction ls with
  | nil => intro i s _ _; simp [mdScan]
  | cons l ls ih =>
    intro i s h1 h3
    simp only [mdScan]
    rw [mdStep_code i l s h1 (h3 l (by simp))]
    rw [ih (i + 1)]
    · simp
    · simp [h1]
    · exact fun x hx => h3 x (by simp [hx])

theorem mem_htmlAll (L : List Str) :
    ∀ (i j : Nat) (l : Str) (t : Str), L[j]? = some l → t ∈ findHtml l →
      mkComment (pyStrip t) .multiLine ((i + j : Nat) : Int)
        ((i + j : Nat) : Int) 0 0 [] ∈ htmlAll i L := by
  induction L with
  | nil => intro i j l t hj _; simp at hj
  | cons x xs ih =>
    intro i j l t hj ht
    cases j with
    | zero =>
      simp only [List.getElem?_cons_zero, Option.some.injEq] at hj
      subst hj
      simp only [htmlAll, List.mem_append]
      left
      exact List.mem_map_of_mem _ ht
    | succ j' =>
      simp only [List.getElem?_cons_succ] at hj
      have := ih (i + 1) j' l t hj ht
      simp only [htmlAll, List.mem_append]
      right
      rw [show i + (j' + 1) = i + 1 + j' from by omega]
      exact this

/-! ## Injection step lemmas -/

theorem foldlM_congr {β : Type} (s1 s2 : β → Int → Option β) (l : List Int)
    (h : ∀ b k, k ∈ l → s1 b k = s2 b k) (b : β) :
    List.foldlM s1 b l = List.foldlM s2 b l := by
  induction l generalizing b with
  | nil => rfl
  | cons a t ih =>
    rw [List.foldlM_cons, List.foldlM_cons, h b a (by simp)]
    cases s2 b a with
    | none => rfl
    | some b' => simpa using ih (fun b k hk => h b k (by simp [hk])) b'

theorem mdInjectStep_big (tr : List (Int × Str)) (pr : ParseResult)
    (lines : List Str) (k : Int) (hk : (pr.textBlocks.length : Int) ≤ k) :
    mdInjectStep tr pr lines k = some lines := by
  simp only [mdInjectStep, if_pos hk]

theorem pythonInjectStep_big (tr : List (Int × Str)) (pr : ParseResult)
    (lines : List Str) (k : Int) (hk : (pr.comments.length : Int) ≤ k) :
    pythonInjectStep tr pr lines k = some lines := by
  simp only [pythonInjectStep, if_pos hk]

theorem ccppInjectStep_big (tr : List (Int × Str)) (pr : ParseResult)
    (lines : List Str) (k : Int) (hk : (pr.comments.length : Int) ≤ k) :
    ccppInjectStep tr pr lines k = some lines := by
  simp only [ccppInjectStep, if_pos hk]

theorem mdInjectStep_filter (tr : List (Int × Str)) (pr : ParseResult)
    (lines : List Str) (k : Int)
    (hk : k < (pr.textBlocks.length : Int)) :
    mdInjectStep (tr.filter fun kv =>
        decide (kv.1 < (pr.textBlocks.length : Int))) pr lines k =
      mdInjectStep tr pr lines k := by
  simp only [mdInjectStep]
  rw [lookup_filter tr (fun x => decide (x < (pr.textBlocks.length : Int)))
    k (by simpa using hk)]

theorem pythonInjectStep_filter (tr : List (Int × Str)) (pr : ParseResult)
    (lines : List Str) (k : Int)
    (hk : k < (pr.comments.length : Int)) :
    pythonInjectStep (tr.filter fun kv =>
        decide (kv.1 < (pr.comments.length : Int))) pr lines k =
      pythonInjectStep tr pr lines k := by
  simp only [pythonInjectStep]
  rw [lookup_filter tr (fun x => decide (x < (pr.comments.length : Int)))
    k (by simpa using hk)]

theorem ccppInjectStep_filter (tr : List (Int × Str)) (pr : ParseResult)
    (lines : List Str) (k : Int)
    (hk : k < (pr.comments.length : Int)) :
    ccppInjectStep (tr.filter fun kv =>
        decide (kv.1 < (pr.comments.length : Int))) pr lines k =
      ccppInjectStep tr pr lines k := by
  simp only [ccppInjectStep]
  rw [lookup_filter tr (fun x => decide (x < (pr.comments.length : Int)))
    k (by simpa using hk)]

/-! ## Claim theorems -/

/-- C1: for every parser (Markdown, Python, C/C++) and every content
string, `inject_translations(content, {}, parse(content))` with an empty
translations map returns the original content byte for byte. -/
theorem claim1_empty_translations_identity (content : Str)
    (pyOracle : Str → Option PyAstInfo) (cOracle : Str → Option TSNode) :
    mdInject content [] (mdParse content) = some content ∧
    pythonInject content [] (pythonParse pyOracle content) = some content ∧
    ccppInject content [] (ccppParse cOracle content) = some content := by
  refine ⟨?_, ?_, ?_⟩ <;>
    simp [mdInject, pythonInject, ccppInject, sortDesc,
      joinLines_splitLines]

/-- C5: for every parser, translation keys at or beyond the span-list
length are silently ignored: the output equals the output of injecting
only the in-range keys, and if every key is out of range the content
comes back unchanged with no error. -/
theorem claim5_stale_indices_ignored (content : Str)
    (tr : List (Int × Str)) (prM prP prC : ParseResult) :
    (mdInject content tr prM =
      mdInject content (tr.filter fun kv =>
        decide (kv.1 < (prM.textBlocks.length : Int))) prM) ∧
    (pythonInject content tr prP =
      pythonInject content (tr.filter fun kv =>
        decide (kv.1 < (prP.comments.length : Int))) prP) ∧
    (ccppInject content tr prC =
      ccppInject content (tr.filter fun kv =>
        decide (kv.1 < (prC.comments.length : Int))) prC) ∧
    ((∀ k ∈ tr.map Prod.fst, (prM.textBlocks.length : Int) ≤ k) →
      mdInject content tr prM = some content) ∧
    ((∀ k ∈ tr.map Prod.fst, (prP.comments.length : Int) ≤ k) →
      pythonInject content tr prP = some content) ∧
    ((∀ k ∈ tr.map Prod.fst, (prC.comments.length : Int) ≤ k) →
      ccppInject content tr prC = some content) := by
  refine ⟨?_, ?_, ?_, ?_, ?_, ?_⟩
  · simp only [mdInject]
    congr 1
    rw [map_fst_filter tr (fun x => decide (x < (prM.textBlocks.length : Int))),
      sortDesc_filter]
    rw [foldlM_filter_skip (mdInjectStep tr prM)
      (fun x => decide (x < (prM.textBlocks.length : Int)))
      (fun b k hk => mdInjectStep_big tr prM b k (by simp at hk; omega))
      (sortDesc (tr.map Prod.fst)) (splitLines content)]
    exact foldlM_congr _ _ _
      (fun b k hk => (mdInjectStep_filter tr prM b k
        (by have := List.of_mem_filter hk; simp at this; omega)).symm) _
  · simp only [pythonInject]
    congr 1
    rw [map_fst_filter tr (fun x => decide (x < (prP.comments.length : Int))),
      sortDesc_filter]
    rw [foldlM_filter_skip (pythonInjectStep tr prP)
      (fun x => decide (x < (prP.comments.length : Int)))
      (fun b k hk => pythonInjectStep_big tr prP b k (by simp at hk; omega))
      (sortDesc (tr.map Prod.fst)) (splitLines content)]
    exact foldlM_congr _ _ _
      (fun b k hk => (pythonInjectStep_filter tr prP b k
        (by have := List.of_mem_filter hk; simp at this; omega)).symm) _
  · simp only [ccppInject]
    congr 1
    rw [map_fst_filter tr (fun x => decide (x < (prC.comments.length : Int))),
      sortDesc_filter]
    rw [foldlM_filter_skip (ccppInjectStep tr prC)
      (fun x => decide (x < (prC.comments.length : Int)))
      (fun b k hk => ccppInjectStep_big tr prC b k (by simp at hk; omega))
      (sortDesc (tr.map Prod.fst)) (splitLines content)]
    exact foldlM_congr _ _ _
      (fun b k hk => (ccppInjectStep_filter tr prC b k
        (by have := List.of_mem_filter hk; simp at this; omega)).symm) _
  · intro hbig
    simp only [mdInject]
    rw [foldlM_noop]
    · simp [joinLines_splitLines]
    · intro b k hk
      exact mdInjectStep_big tr prM b k
        (hbig k ((sortDesc_perm _).mem_iff.mp hk))
  · intro hbig
    simp only [pythonInject]
    rw [foldlM_noop]
    · simp [joinLines_splitLines]
    · intro b k hk
      exact pythonInjectStep_big tr prP b k
        (hbig k ((sortDesc_perm _).mem_iff.mp hk))
  · intro hbig
    simp only [ccppInject]
    rw [foldlM_noop]
    · simp [joinLines_splitLines]
    · intro b k hk
      exact ccppInjectStep_big tr prC b k
        (hbig k ((sortDesc_perm _).mem_iff.mp hk))

/-- Witness for C5 at a concrete input: a single stale key `5` leaves
every parser's content unchanged. -/
theorem claim5_witness :
    mdInject ("ab".data) [((5 : Int), "x".data)] (mdParse "ab".data) =
      some ("ab".data) ∧
    pythonInject ("ab".data) [((5 : Int), "x".data)]
      (pythonParse (fun _ => none) "ab".data) = some ("ab".data) ∧
    ccppInject ("ab".data) [((5 : Int), "x".data)]
      (ccppParse (fun _ => none) "ab".data) = some ("ab".data) := by
  have h := claim5_stale_indices_ignored ("ab".data)
    [((5 : Int), "x".data)] (mdParse "ab".data)
    (pythonParse (fun _ => none) "ab".data)
    (ccppParse (fun _ => none) "ab".data)
  exact ⟨h.2.2.2.1 (by decide), h.2.2.2.2.1 (by decide),
    h.2.2.2.2.2 (by decide)⟩

theorem foldlM_singleton {β : Type} (step : β → Int → Option β) (x : Int)
    (b : β) : List.foldlM step b [x] = step b x := by
  rw [List.foldlM_cons]
  cases step b x with
  | none => rfl
  | some b' => rfl

theorem lookup_single (k : Int) (t : Str) :
    List.lookup k [(k, t)] = some t := by
  simp [List.lookup]

theorem pythonInjectStep_negkey (pr : ParseResult) (lines : List Str)
    (t : Str) (k : Nat) (h1 : 1 ≤ k) (h2 : k ≤ pr.comments.length) :
    pythonInjectStep [(-(k : Int), t)] pr lines (-(k : Int)) =
      pythonInjectStep [(((pr.comments.length - k : Nat) : Int), t)] pr
        lines ((pr.comments.length - k : Nat) : Int) := by
  have e1 : pyIndex? pr.comments (-(k : Int)) =
      pr.comments[pr.comments.length - k]? := pyIndex?_neg _ k h1 h2
  have e2 : pyIndex? pr.comments ((pr.comments.length - k : Nat) : Int) =
      pr.comments[pr.comments.length - k]? := pyIndex?_nat _ _ (by omega)
  simp only [pythonInjectStep, e1, e2, lookup_single]
  rw [if_neg, if_neg]
  · omega
  · omega

theorem ccppInjectStep_negkey (pr : ParseResult) (lines : List Str)
    (t : Str) (k : Nat) (h1 : 1 ≤ k) (h2 : k ≤ pr.comments.length) :
    ccppInjectStep [(-(k : Int), t)] pr lines (-(k : Int)) =
      ccppInjectStep [(((pr.comments.length - k : Nat) : Int), t)] pr
        lines ((pr.comments.length - k : Nat) : Int) := by
  have e1 : pyIndex? pr.comments (-(k : Int)) =
      pr.comments[pr.comments.length - k]? := pyIndex?_neg _ k h1 h2
  have e2 : pyIndex? pr.comments ((pr.comments.length - k : Nat) : Int) =
      pr.comments[pr.comments.length - k]? := pyIndex?_nat _ _ (by omega)
  simp only [ccppInjectStep, e1, e2, lookup_single]
  rw [if_neg, if_neg]
  · omega
  · omega

theorem mdInjectStep_negkey (pr : ParseResult) (lines : List Str)
    (t : Str) (k : Nat) (h1 : 1 ≤ k) (h2 : k ≤ pr.textBlocks.length) :
    mdInjectStep [(-(k : Int), t)] pr lines (-(k : Int)) =
      mdInjectStep [(((pr.textBlocks.length - k : Nat) : Int), t)] pr
        lines ((pr.textBlocks.length - k : Nat) : Int) := by
  have e1 : pyIndex? pr.textBlocks (-(k : Int)) =
      pr.textBlocks[pr.textBlocks.length - k]? := pyIndex?_neg _ k h1 h2
  have e2 : pyIndex? pr.textBlocks ((pr.textBlocks.length - k : Nat) : Int) =
      pr.textBlocks[pr.textBlocks.length - k]? := pyIndex?_nat _ _ (by omega)
  simp only [mdInjectStep, e1, e2, lookup_single]
  rw [if_neg, if_neg]
  · omega
  · omega

/-- C9: a negative key `-k` passes every injector's bounds check (which
only tests `idx >= len`) and addresses the `k`-th span from the end:
injecting at key `-k` equals injecting the same text at key `len - k`. -/
theorem claim9_negative_keys_rewrite_from_end (content : Str) (t : Str)
    (pr : ParseResult) (k : Nat) :
    (1 ≤ k → k ≤ pr.comments.length →
      pythonInject content [(-(k : Int), t)] pr =
        pythonInject content
          [(((pr.comments.length - k : Nat) : Int), t)] pr) ∧
    (1 ≤ k → k ≤ pr.comments.length →
      ccppInject content [(-(k : Int), t)] pr =
        ccppInject content
          [(((pr.comments.length - k : Nat) : Int), t)] pr) ∧
    (1 ≤ k → k ≤ pr.textBlocks.length →
      mdInject content [(-(k : Int), t)] pr =
        mdInject content
          [(((pr.textBlocks.length - k : Nat) : Int), t)] pr) := by
  refine ⟨?_, ?_, ?_⟩
  · intro h1 h2
    simp only [pythonInject, List.map_cons, List.map_nil, sortDesc,
      insDesc, foldlM_singleton]
    rw [pythonInjectStep_negkey pr _ t k h1 h2]
  · intro h1 h2
    simp only [ccppInject, List.map_cons, List.map_nil, sortDesc,
      insDesc, foldlM_singleton]
    rw [ccppInjectStep_negkey pr _ t k h1 h2]
  · intro h1 h2
    simp only [mdInject, List.map_cons, List.map_nil, sortDesc,
      insDesc, foldlM_singleton]
    rw [mdInjectStep_negkey pr _ t k h1 h2]

/-- Witness for C9 at a concrete input: key `-1` on a one-comment /
one-block parse result behaves exactly like key `0` (and rewrites the
span: the outputs differ from the untouched content). -/
theorem claim9_witness :
    (1 ≤ 1 ∧
      1 ≤ (ParseResult.mk
        [mkComment ("a".data) .singleLine 1 1 0 0 ("# a".data)]
        [mkTextBlock ("hello".data) 1 1 false [] []]
        ("x".data)).comments.length) ∧
    pythonInject ("# a".data) [((-1 : Int), "t".data)]
      (ParseResult.mk
        [mkComment ("a".data) .singleLine 1 1 0 0 ("# a".data)]
        [mkTextBlock ("hello".data) 1 1 false [] []] ("x".data)) =
      pythonInject ("# a".data) [((0 : Int), "t".data)]
        (ParseResult.mk
          [mkComment ("a".data) .singleLine 1 1 0 0 ("# a".data)]
          [mkTextBlock ("hello".data) 1 1 false [] []] ("x".data)) ∧
    mdInject ("hello".data) [((-1 : Int), "t".data)]
      (ParseResult.mk
        [mkComment ("a".data) .singleLine 1 1 0 0 ("# a".data)]
        [mkTextBlock ("hello".data) 1 1 false [] []] ("x".data)) =
      mdInject ("hello".data) [((0 : Int), "t".data)]
        (ParseResult.mk
          [mkComment ("a".data) .singleLine 1 1 0 0 ("# a".data)]
          [mkTextBlock ("hello".data) 1 1 false [] []] ("x".data)) := by
  refine ⟨⟨by decide, by decide⟩, ?_, ?_⟩
  · exact (claim9_negative_keys_rewrite_from_end ("# a".data) ("t".data)
      (ParseResult.mk
        [mkComment ("a".data) .singleLine 1 1 0 0 ("# a".data)]
        [mkTextBlock ("hello".data) 1 1 false [] []] ("x".data)) 1).1
      (by decide) (by decide)
  · exact (claim9_negative_keys_rewrite_from_end ("hello".data) ("t".data)
      (ParseResult.mk
        [mkComment ("a".data) .singleLine 1 1 0 0 ("# a".data)]
        [mkTextBlock ("hello".data) 1 1 false [] []] ("x".data)) 1).2.2
      (by decide) (by decide)

/-- C4: when the grammar-based parser cannot parse the content (the
`ast_comments` / tree-sitter oracle raises), `parse` returns a
`ParseResult` with empty `comments` and `text_blocks` and no exception
escapes. -/
theorem claim4_parse_failure_empty_result (content : Str)
    (pyOracle : Str → Option PyAstInfo) (cOracle : Str → Option TSNode)
    (hpy : pyOracle content = none) (hc : cOracle content = none) :
    (pythonParse pyOracle content).comments = [] ∧
    (pythonParse pyOracle content).textBlocks = [] ∧
    (ccppParse cOracle content).comments = [] ∧
    (ccppParse cOracle content).textBlocks = [] := by
  simp [pythonParse, ccppParse, hpy, hc, sortLS]

/-- Witness for C4 at a concrete input: an oracle that always fails
yields empty parse results. -/
theorem claim4_witness :
    ((fun _ : Str => (none : Option PyAstInfo)) ("def f(:".data) = none) ∧
    ((fun _ : Str => (none : Option TSNode)) ("def f(:".data) = none) ∧
    (pythonParse (fun _ => none) ("def f(:".data)).comments = [] ∧
    (ccppParse (fun _ => none) ("def f(:".data)).comments = [] := by
  refine ⟨rfl, rfl, ?_, ?_⟩
  · exact (claim4_parse_failure_empty_result ("def f(:".data)
      (fun _ => none) (fun _ => none) rfl rfl).1
  · exact (claim4_parse_failure_empty_result ("def f(:".data)
      (fun _ => none) (fun _ => none) rfl rfl).2.2.1

/-- C8: the C/C++ injector re-emits a `///` doc comment as one
indented `/// `-prefixed line per translated line, and a `/**` doc
comment with a multi-line translation as an opening `/**` line, one
` * `-prefixed line per translated line and a closing ` */` line,
replacing the original line range with the original indentation. -/
theorem claim8_ccpp_doc_comment_styles (content t : Str)
    (pr : ParseResult) (i s e : Nat) (c : Comment) (firstLine : Str)
    (hc : pr.comments[i]? = some c)
    (hty : c.type = .docComment)
    (hls : c.lineStart = (s : Int) + 1)
    (hle : c.lineEnd = (e : Int) + 1)
    (hse : s ≤ e) (helen : e < (splitLines content).length)
    (hfl : (splitLines content)[s]? = some firstLine) :
    (("///".data).isPrefixOf c.original = true →
      ccppInject content [((i : Int), t)] pr =
        some (joinLines ((splitLines content).take s ++
          ((splitLines t).map fun l =>
            takeIndent firstLine ++ "/// ".data ++ l) ++
          (splitLines content).drop (e + 1)))) ∧
    (("/**".data).isPrefixOf c.original = true → 2 ≤ (splitLines t).length →
      ccppInject content [((i : Int), t)] pr =
        some (joinLines ((splitLines content).take s ++
          ((takeIndent firstLine ++ "/**".data) ::
            ((splitLines t).map fun l =>
              takeIndent firstLine ++ " * ".data ++ l) ++
            [takeIndent firstLine ++ " */".data]) ++
          (splitLines content).drop (e + 1)))) := by
  have hilen : i < pr.comments.length := (List.getElem?_eq_some.mp hc).1
  have hslines : s < (splitLines content).length := by omega
  have e1 : pyIndex? pr.comments ((i : Nat) : Int) = some c := by
    rw [pyIndex?_nat pr.comments i hilen, hc]
  have e2 : pyIndex? (splitLines content) ((s : Nat) : Int) =
      some firstLine := by
    rw [pyIndex?_nat _ s hslines, hfl]
  have hsl : c.lineStart - 1 = ((s : Nat) : Int) := by rw [hls]; ring
  have hel : c.lineEnd - 1 + 1 = ((e + 1 : Nat) : Int) := by
    rw [hle]; push_cast; ring
  constructor
  · intro hp
    simp only [ccppInject, List.map_cons, List.map_nil, sortDesc, insDesc,
      foldlM_singleton, ccppInjectStep]
    rw [if_neg (by omega), e1]
    simp only [Option.bind_eq_bind, Option.some_bind, lookup_single, hty,
      hsl, hel, e2, hp, if_true, Option.map_some']
    rw [pySliceAssign_nat _ s (e + 1) _ (by omega) (by omega)]
    rfl
  · intro hp hlen
    obtain ⟨rest, hrest⟩ := List.isPrefixOf_iff_prefix.mp hp
    have hnot3 : ("///".data).isPrefixOf c.original = false := by
      rw [← hrest]
      simp [List.isPrefixOf]
    simp only [ccppInject, List.map_cons, List.map_nil, sortDesc, insDesc,
      foldlM_singleton, ccppInjectStep]
    rw [if_neg (by omega), e1]
    simp only [Option.bind_eq_bind, Option.some_bind, lookup_single, hty,
      hsl, hel, e2, hnot3, Bool.false_eq_true, if_false, Option.map_some']
    rw [if_neg (by omega)]
    rw [pySliceAssign_nat _ s (e + 1) _ (by omega) (by omega)]
    rfl

theorem claim8_witness :
    ccppInject ("int a;\n    /// old doc\nint b;".data)
      [((0 : Int), "l1\nl2".data)]
      (ParseResult.mk
        [mkComment ("old doc".data) .docComment 2 2 0 0 ("/// old doc".data)]
        [] []) =
      some ("int a;\n    /// l1\n    /// l2\nint b;".data) ∧
    ccppInject ("int a;\n    /** old */\nint b;".data)
      [((0 : Int), "a\nb\nc".data)]
      (ParseResult.mk
        [mkComment ("old".data) .docComment 2 2 0 0 ("/** old */".data)]
        [] []) =
      some
        ("int a;\n    /**\n     * a\n     * b\n     * c\n     */\nint b;".data)
    := by
  constructor
  · exact ((claim8_ccpp_doc_comment_styles
      ("int a;\n    /// old doc\nint b;".data) ("l1\nl2".data)
      (ParseResult.mk
        [mkComment ("old doc".data) .docComment 2 2 0 0 ("/// old doc".data)]
        [] []) 0 1 1
      (mkComment ("old doc".data) .docComment 2 2 0 0 ("/// old doc".data))
      ("    /// old doc".data) (by decide) (by decide) (by decide)
      (by decide) (by decide) (by decide) (by decide)).1 (by decide)).trans
      (by decide)
  · exact ((claim8_ccpp_doc_comment_styles
      ("int a;\n    /** old */\nint b;".data) ("a\nb\nc".data)
      (ParseResult.mk
        [mkComment ("old".data) .docComment 2 2 0 0 ("/** old */".data)]
        [] []) 0 1 1
      (mkComment ("old".data) .docComment 2 2 0 0 ("/** old */".data))
      ("    /** old */".data) (by decide) (by decide) (by decide)
      (by decide) (by decide) (by decide) (by decide)).2 (by decide)
      (by decide)).trans (by decide)

/-- C2 (amended): quote style is detected from the ~10 characters before
the first occurrence (`str.find`) of the docstring text in the content;
when that window lacks three double quotes, the detector returns three
single quotes, the parse records `original` wrapped in them, and a
single-line docstring is re-emitted with three single quotes. -/
theorem claim2_amended_quote_style (oracle : Str → Option PyAstInfo)
    (content t : Str) (n : PyDocNode) (p s : Nat) (ln : Str)
    (hor : oracle content = some ⟨[], [n]⟩)
    (hfind : strFindAux n.docstring content 0 = some p)
    (hp : 0 < p)
    (hwin : strContains
      (pySliceGet content (max 0 ((p : Int) - 10)) (p : Int)) dq3 = false)
    (hno3 : strContains (sq3 ++ n.docstring ++ sq3) dq3 = false)
    (hline : n.lineno = (s : Int) + 1)
    (hend : n.endLineno = n.lineno)
    (hln : (splitLines content)[s]? = some ln) :
    detectQuoteStyle content n.docstring = sq3 ∧
    (pythonParse oracle content).comments =
      [mkComment n.docstring .docstring n.lineno n.lineno n.colOffset
        n.endColOffset (sq3 ++ n.docstring ++ sq3)] ∧
    pythonInject content [((0 : Int), t)] (pythonParse oracle content) =
      some (joinLines ((splitLines content).set s
        (takeIndent ln ++ sq3 ++ t ++ sq3))) := by
  have hdet : detectQuoteStyle content n.docstring = sq3 := by
    simp only [detectQuoteStyle, strFind, hfind]
    rw [if_neg (by omega)]
    simp [hwin]
  have hparse : (pythonParse oracle content).comments =
      [mkComment n.docstring .docstring n.lineno n.lineno n.colOffset
        n.endColOffset (sq3 ++ n.docstring ++ sq3)] := by
    simp only [pythonParse, hor, List.map_nil, List.map_cons,
      pyDocCommentOfNode, hdet, List.nil_append]
    rw [if_neg (by rw [hend, hline]; omega)]
    simp [sortLS, insLS, hend]
  refine ⟨hdet, hparse, ?_⟩
  have hslen : s < (splitLines content).length :=
    (List.getElem?_eq_some.mp hln).1
  have horig : (mkComment n.docstring .docstring n.lineno n.lineno
      n.colOffset n.endColOffset (sq3 ++ n.docstring ++ sq3)).original =
      sq3 ++ n.docstring ++ sq3 := by
    simp [mkComment, sq3, sqChar]
  have htype : (mkComment n.docstring .docstring n.lineno n.lineno
      n.colOffset n.endColOffset (sq3 ++ n.docstring ++ sq3)).type =
      .docstring := by
    simp [mkComment]
  have hlsf : (mkComment n.docstring .docstring n.lineno n.lineno
      n.colOffset n.endColOffset (sq3 ++ n.docstring ++ sq3)).lineStart =
      n.lineno := by
    simp [mkComment]
  have hlef : (mkComment n.docstring .docstring n.lineno n.lineno
      n.colOffset n.endColOffset (sq3 ++ n.docstring ++ sq3)).lineEnd =
      n.lineno := by
    simp [mkComment]
  simp only [pythonInject, hparse, List.map_cons, List.map_nil, sortDesc,
    insDesc, foldlM_singleton, pythonInjectStep, List.length_cons,
    List.length_nil]
  rw [if_neg (by omega)]
  rw [show pyIndex? [mkComment n.docstring .docstring n.lineno n.lineno
      n.colOffset n.endColOffset (sq3 ++ n.docstring ++ sq3)]
      (0 : Int) = some (mkComment n.docstring .docstring n.lineno
        n.lineno n.colOffset n.endColOffset (sq3 ++ n.docstring ++ sq3))
    from rfl]
  simp only [Option.bind_eq_bind, Option.some_bind, lookup_single, htype,
    horig, hlsf, hlef, hno3, Bool.false_eq_true, if_false]
  simp only [if_true]
  have hsli : n.lineno - 1 = ((s : Nat) : Int) := by rw [hline]; ring
  rw [hsli]
  rw [show pyIndex? (splitLines content) ((s : Nat) : Int) = some ln
    from by rw [pyIndex?_nat _ s hslen, hln]]
  simp only [Option.bind_eq_bind, Option.some_bind]
  rw [pySet?_nat _ s hslen]
  simp

/-- Counterexample to C2 as stated: in this file the docstring text
`abc` first occurs inside an earlier string literal, so the code inspects
the window before THAT occurrence (offset 7) instead of the docstring's
own start offset (offset 30, whose preceding window holds three single
quotes and would give the single-quote style): the detector returns three
double quotes and the function documented with three single quotes is
re-emitted with three double quotes. -/
theorem claim2_counterexample :
    pySliceGet ("x = \"\"\"abc\"\"\"\ndef f():\n    ".data ++ sq3 ++
      "abc".data ++ sq3) 27 36 = sq3 ++ "abc".data ++ sq3 ∧
    specQuoteStyle ("x = \"\"\"abc\"\"\"\ndef f():\n    ".data ++ sq3 ++
      "abc".data ++ sq3) 30 = sq3 ∧
    detectQuoteStyle ("x = \"\"\"abc\"\"\"\ndef f():\n    ".data ++ sq3 ++
      "abc".data ++ sq3) ("abc".data) = dq3 ∧
    pythonInject ("x = \"\"\"abc\"\"\"\ndef f():\n    ".data ++ sq3 ++
        "abc".data ++ sq3) [((0 : Int), "xyz".data)]
      (pythonParse (fun _ => some ⟨[], [⟨"abc".data, 3, 3, 4, 13⟩]⟩)
        ("x = \"\"\"abc\"\"\"\ndef f():\n    ".data ++ sq3 ++
          "abc".data ++ sq3)) =
      some ("x = \"\"\"abc\"\"\"\ndef f():\n    \"\"\"xyz\"\"\"".data) := by
  refine ⟨by decide, by decide, by decide, by decide⟩

/-- Witness for the amended C2 at a concrete input: a file whose only
occurrence of the docstring text is the docstring itself, documented with
three single quotes, round-trips with three single quotes. -/
theorem claim2_witness :
    detectQuoteStyle ("def f():\n    ".data ++ sq3 ++ "hi".data ++ sq3)
      ("hi".data) = sq3 ∧
    pythonInject ("def f():\n    ".data ++ sq3 ++ "hi".data ++ sq3)
      [((0 : Int), "yo".data)]
      (pythonParse (fun _ => some ⟨[], [⟨"hi".data, 2, 2, 4, 13⟩]⟩)
        ("def f():\n    ".data ++ sq3 ++ "hi".data ++ sq3)) =
      some ("def f():\n    ".data ++ sq3 ++ "yo".data ++ sq3) := by
  have h := claim2_amended_quote_style
    (fun _ => some ⟨[], [⟨"hi".data, 2, 2, 4, 13⟩]⟩)
    ("def f():\n    ".data ++ sq3 ++ "hi".data ++ sq3) ("yo".data)
    ⟨"hi".data, 2, 2, 4, 13⟩ 16 1
    ("    ".data ++ sq3 ++ "hi".data ++ sq3)
    rfl (by decide) (by decide) (by decide) (by decide) (by decide)
    (by decide) (by decide)
  exact ⟨h.1, h.2.2.trans (by decide)⟩

/-! ## Lemmas about the `original` field -/

theorem mdStep_comments (i : Nat) (line : Str) (s : MdState) :
    (mdStep i line s).comments = s.comments ∨
    (mdStep i line s).comments = s.comments ++
      ((findHtml line).map fun t =>
        mkComment (pyStrip t) .multiLine (i : Int) (i : Int) 0 0 []) := by
  cases hf : mdFence line with
  | some tag =>
    left
    cases hb : s.inCodeBlock
    · by_cases hcur : s.cur = [] <;> simp [mdStep, hf, hb, hcur]
    · by_cases hcur : s.cur = [] <;> simp [mdStep, hf, hb, hcur]
  | none =>
    cases hb : s.inCodeBlock
    · right
      by_cases hcur : s.cur = [] <;> simp [mdStep, hf, hb, hcur]
    · left
      simp [mdStep, hf, hb]

theorem mdScan_comments_original (ls : List Str) :
    ∀ (i : Nat) (s : MdState),
      (∀ c ∈ s.comments, c.original = c.text) →
      ∀ c ∈ (mdScan i ls s).comments, c.original = c.text := by
  induction ls with
  | nil => intro i s h; exact h
  | cons l ls ih =>
    intro i s h
    simp only [mdScan]
    apply ih
    intro c hc
    rcases mdStep_comments i l s with he | he
    · rw [he] at hc; exact h c hc
    · rw [he] at hc
      rcases List.mem_append.mp hc with hc | hc
      · exact h c hc
      · rcases List.mem_map.mp hc with ⟨t, _, rfl⟩
        simp [mkComment]

theorem detectQuoteStyle_ne_nil (content ds : Str) :
    detectQuoteStyle content ds ≠ [] := by
  simp only [detectQuoteStyle]
  split
  · decide
  · split
    · decide
    · decide

theorem ccppCommentOfNode_original (tx : Str) (sr sc er ec : Nat) :
    (ccppCommentOfNode tx sr sc er ec).original = tx := by
  by_cases h : tx = []
  · subst h; rfl
  · simp [ccppCommentOfNode, mkComment, h]

mutual

theorem ccppExtract_original_mem (t : TSNode) :
    ∀ c ∈ ccppExtract t, c.original ∈ ccppNodeTexts t := by
  match t with
  | .node ty tx sr sc er ec ch =>
    intro c hc
    simp only [ccppExtract, ccppNodeTexts, List.mem_append] at hc ⊢
    rcases hc with hc | hc
    · left
      by_cases hty : ty = "comment".data
      · simp only [if_pos hty, List.mem_singleton] at hc ⊢
        rw [hc, ccppCommentOfNode_original]
      · rw [if_neg hty] at hc
        simp at hc
    · right
      exact ccppExtractList_original_mem ch c hc

theorem ccppExtractList_original_mem (l : List TSNode) :
    ∀ c ∈ ccppExtractList l, c.original ∈ ccppNodeTextsList l := by
  match l with
  | [] => intro c hc; simp [ccppExtractList] at hc
  | n :: ns =>
    intro c hc
    simp only [ccppExtractList, ccppNodeTextsList, List.mem_append] at hc ⊢
    rcases hc with hc | hc
    · left; exact ccppExtract_original_mem n c hc
    · right; exact ccppExtractList_original_mem ns c hc

end

theorem mdParse_comments (content : Str) :
    (mdParse content).comments =
      (mdScan 1 (splitLines content) ⟨false, [], [], 0, [], []⟩).comments := by
  simp only [mdParse]
  split <;> rfl

/-- C3 (amended): what each parser actually records in `original`.
C/C++ comments carry the verbatim tree-sitter node text (hence a verbatim
slice of the content whenever the nodes are faithful); Python `#` comments
carry the raw comment text; Python docstrings carry the detected quote
style wrapped around the cleaned docstring text (not the verbatim source
slice); markdown HTML comments leave `original` defaulted to the stripped
inner text, without the `<!-- -->` markers. -/
theorem claim3_amended_original_fields :
    (∀ content : Str, ∀ c ∈ (mdParse content).comments,
      c.original = c.text) ∧
    (∀ (oracle : Str → Option PyAstInfo) (content : Str)
      (info : PyAstInfo), oracle content = some info →
      ∀ c ∈ (pythonParse oracle content).comments,
        (∃ n ∈ info.commentNodes, c.original = n.value ∧
          c.text = pyStrip (pyLStripChars ['#'] n.value)) ∨
        (∃ n ∈ info.docstringNodes,
          c.original = detectQuoteStyle content n.docstring ++
            n.docstring ++ detectQuoteStyle content n.docstring ∧
          c.text = n.docstring)) ∧
    (∀ (oracle : Str → Option TSNode) (content : Str) (root : TSNode),
      oracle content = some root →
      (∀ c ∈ (ccppParse oracle content).comments,
        c.original ∈ ccppNodeTexts root) ∧
      ((∀ tx ∈ ccppNodeTexts root, ∃ pre post, content = pre ++ tx ++ post)
        → ∀ c ∈ (ccppParse oracle content).comments,
          ∃ pre post, content = pre ++ c.original ++ post)) := by
  refine ⟨?_, ?_, ?_⟩
  · intro content c hc
    rw [mdParse_comments] at hc
    exact mdScan_comments_original _ 1 _ (by simp) c hc
  · intro oracle content info hor c hc
    simp only [pythonParse, hor] at hc
    rcases List.mem_append.mp (mem_sortLS.mp hc) with hm | hm
    · rcases List.mem_map.mp hm with ⟨n, hn, rfl⟩
      left
      refine ⟨n, hn, ?_, ?_⟩
      · by_cases hv : n.value = []
        · simp [pyCommentOfNode, mkComment, hv, pyStrip, pyLStripChars]
        · simp [pyCommentOfNode, mkComment, hv]
      · simp [pyCommentOfNode, mkComment]
    · rcases List.mem_map.mp hm with ⟨n, hn, rfl⟩
      right
      have hq := detectQuoteStyle_ne_nil content n.docstring
      have hne : detectQuoteStyle content n.docstring ++ n.docstring ++
          detectQuoteStyle content n.docstring ≠ [] := by
        intro he
        rw [List.append_eq_nil, List.append_eq_nil] at he
        exact hq he.1.1
      refine ⟨n, hn, ?_, ?_⟩
      · simp only [pyDocCommentOfNode, mkComment]
        rw [if_neg hne]
      · simp [pyDocCommentOfNode, mkComment]
  · intro oracle content root hor
    have h1 : ∀ c ∈ (ccppParse oracle content).comments,
        c.original ∈ ccppNodeTexts root := by
      intro c hc
      simp only [ccppParse, hor] at hc
      exact ccppExtract_original_mem root c (mem_sortLS.mp hc)
    exact ⟨h1, fun htx c hc => htx c.original (h1 c hc)⟩

/-- Counterexample to C3 as stated: the markdown parser records the
single HTML comment of `a <!-- hi --> b` with `original = "hi"`, the
stripped inner text, which is not the verbatim source span
`<!-- hi -->` (the markers are missing). -/
theorem claim3_counterexample :
    (mdParse ("a <!-- hi --> b".data)).comments.map Comment.original =
      [("hi".data)] ∧
    ("hi".data : Str) ≠ ("<!-- hi -->".data) := by
  exact ⟨by decide, by decide⟩

/-- Witness for the amended C3 at concrete inputs, one per parser. -/
theorem claim3_witness :
    ((mkComment ("hi".data) .multiLine 1 1 0 0 []).original =
      (mkComment ("hi".data) .multiLine 1 1 0 0 []).text) ∧
    ((∃ n ∈ ([⟨"# c".data, 1, 4⟩] : List PyCommentNode),
      (pyCommentOfNode ⟨"# c".data, 1, 4⟩).original = n.value ∧
      (pyCommentOfNode ⟨"# c".data, 1, 4⟩).text =
        pyStrip (pyLStripChars ['#'] n.value)) ∨
     (∃ n ∈ ([] : List PyDocNode),
      (pyCommentOfNode ⟨"# c".data, 1, 4⟩).original =
        detectQuoteStyle ("x = 1  # c".data) n.docstring ++ n.docstring ++
          detectQuoteStyle ("x = 1  # c".data) n.docstring ∧
      (pyCommentOfNode ⟨"# c".data, 1, 4⟩).text = n.docstring)) ∧
    ((ccppCommentOfNode ("// x".data) 0 0 0 4).original ∈
      ccppNodeTexts (.node ("comment".data) ("// x".data) 0 0 0 4 [])) ∧
    (∃ pre post, ("// x".data : Str) =
      pre ++ (ccppCommentOfNode ("// x".data) 0 0 0 4).original ++ post)
    := by
  refine ⟨?_, ?_, ?_, ?_⟩
  · exact claim3_amended_original_fields.1 ("a <!-- hi --> b".data)
      (mkComment ("hi".data) .multiLine 1 1 0 0 []) (by decide)
  · exact claim3_amended_original_fields.2.1
      (fun _ => some ⟨[⟨"# c".data, 1, 4⟩], []⟩) ("x = 1  # c".data)
      ⟨[⟨"# c".data, 1, 4⟩], []⟩ rfl
      (pyCommentOfNode ⟨"# c".data, 1, 4⟩) (by decide)
  · exact (claim3_amended_original_fields.2.2
      (fun _ => some (.node ("comment".data) ("// x".data) 0 0 0 4 []))
      ("// x".data) (.node ("comment".data) ("// x".data) 0 0 0 4 [])
      rfl).1 (ccppCommentOfNode ("// x".data) 0 0 0 4) (by decide)
  · exact (claim3_amended_original_fields.2.2
      (fun _ => some (.node ("comment".data) ("// x".data) 0 0 0 4 []))
      ("// x".data) (.node ("comment".data) ("// x".data) 0 0 0 4 [])
      rfl).2
      (by
        intro tx htx
        simp only [ccppNodeTexts, ccppNodeTextsList, if_true,
          List.append_nil, List.mem_singleton] at htx
        exact ⟨[], [], by rw [htx]; decide⟩)
      (ccppCommentOfNode ("// x".data) 0 0 0 4) (by decide)

theorem joinLines_mem_parts (L : List Str) (l : Str) (h : l ∈ L) :
    ∃ pre post, joinLines L = pre ++ l ++ post := by
  induction L with
  | nil => simp at h
  | cons x xs ih =>
    rcases List.mem_cons.mp h with rfl | h'
    · cases xs with
      | nil => exact ⟨[], [], by simp [joinLines]⟩
      | cons y ys =>
        exact ⟨[], nlChar :: joinLines (y :: ys), by simp [joinLines]⟩
    · cases xs with
      | nil => simp at h'
      | cons y ys =>
        obtain ⟨pre, post, hpp⟩ := ih h'
        exact ⟨x ++ nlChar :: pre, post, by
          simp only [joinLines, hpp, List.append_assoc, List.cons_append]⟩

theorem mdParse_no_fence (content : Str)
    (hnf : ∀ l ∈ splitLines content, mdFence l = none) :
    (mdParse content).comments = htmlAll 1 (splitLines content) ∧
    (mdParse content).textBlocks =
      [mkTextBlock content 1 ((splitLines content).length : Int)
        false [] []] := by
  obtain ⟨l, ls, hl⟩ : ∃ l ls, splitLines content = l :: ls := by
    cases h : splitLines content with
    | nil => exact absurd h (splitLines_ne_nil _)
    | cons a b => exact ⟨a, b, rfl⟩
  have hjoin : joinLines (l :: ls) = content := by
    rw [← hl, joinLines_splitLines]
  simp only [mdParse, hl]
  rw [mdScan_prose_nil l ls 1 _ rfl rfl (by rw [← hl]; exact hnf)]
  simp [hjoin]

/-- C7: for every markdown line outside a code fence holding an HTML
comment, parse appends a multi-line Comment with the stripped inner text
while the full line, markers included, also stays inside the enclosing
prose TextBlock. -/
theorem claim7_html_comment_duplication (content : Str) (j : Nat)
    (l t : Str)
    (hnf : ∀ x ∈ splitLines content, mdFence x = none)
    (hj : (splitLines content)[j]? = some l)
    (ht : t ∈ findHtml l) :
    (∃ c ∈ (mdParse content).comments,
      c.text = pyStrip t ∧ c.type = .multiLine ∧
      c.lineStart = ((1 + j : Nat) : Int) ∧
      c.lineEnd = ((1 + j : Nat) : Int) ∧
      c.original = pyStrip t) ∧
    (∃ b ∈ (mdParse content).textBlocks, b.isCode = false ∧
      ∃ pre post, b.text = pre ++ l ++ post) := by
  obtain ⟨hcom, hblocks⟩ := mdParse_no_fence content hnf
  constructor
  · refine ⟨mkComment (pyStrip t) .multiLine ((1 + j : Nat) : Int)
      ((1 + j : Nat) : Int) 0 0 [], ?_, ?_, ?_, ?_, ?_, ?_⟩
    · rw [hcom]
      exact mem_htmlAll _ 1 j l t hj ht
    · simp [mkComment]
    · simp [mkComment]
    · simp [mkComment]
    · simp [mkComment]
    · simp [mkComment]
  · refine ⟨mkTextBlock content 1 ((splitLines content).length : Int)
      false [] [], ?_, ?_, ?_⟩
    · rw [hblocks]; simp
    · simp [mkTextBlock]
    · have hmem : l ∈ splitLines content := List.getElem?_mem hj
      obtain ⟨pre, post, hpp⟩ :=
        joinLines_mem_parts (splitLines content) l hmem
      rw [joinLines_splitLines] at hpp
      exact ⟨pre, post, by simp [mkTextBlock, hpp]⟩

/-- Witness for C7 at a concrete input. -/
theorem claim7_witness :
    (∃ c ∈ (mdParse ("hello <!-- note --> world".data)).comments,
      c.text = pyStrip (" note ".data) ∧ c.type = .multiLine ∧
      c.lineStart = ((1 + 0 : Nat) : Int) ∧
      c.lineEnd = ((1 + 0 : Nat) : Int) ∧
      c.original = pyStrip (" note ".data)) ∧
    (∃ b ∈ (mdParse ("hello <!-- note --> world".data)).textBlocks,
      b.isCode = false ∧ ∃ pre post,
        b.text = pre ++ ("hello <!-- note --> world".data) ++ post) := by
  exact claim7_html_comment_duplication ("hello <!-- note --> world".data)
    0 ("hello <!-- note --> world".data) (" note ".data)
    (by decide) (by decide) (by decide)

theorem mdScan_c6 (p1 code p2 : List Str) (openL closeL tag tagc : Str)
    (hp1 : p1 ≠ []) (hcode : code ≠ []) (hp2 : p2 ≠ [])
    (hnf1 : ∀ l ∈ p1, mdFence l = none)
    (hnfc : ∀ l ∈ code, mdFence l = none)
    (hnf2 : ∀ l ∈ p2, mdFence l = none)
    (ho : mdFence openL = some tag)
    (hcl : mdFence closeL = some tagc) :
    mdScan 1 (p1 ++ openL :: (code ++ closeL :: p2))
      ⟨false, [], [], 0, [], []⟩ =
    ⟨false, tag, p2, p1.length + code.length + 3,
      htmlAll 1 p1 ++ htmlAll (p1.length + code.length + 3) p2,
      [mkTextBlock (joinLines p1) 1 (p1.length : Int) false [] [],
       mkTextBlock (joinLines code) ((p1.length + 1 : Nat) : Int)
         ((p1.length + code.length + 1 : Nat) : Int) true tag []]⟩ := by
  obtain ⟨l1, p1t, hp1e⟩ : ∃ x xs, p1 = x :: xs := by
    cases p1 with
    | nil => exact absurd rfl hp1
    | cons x xs => exact ⟨x, xs, rfl⟩
  obtain ⟨m1, p2t, hp2e⟩ : ∃ x xs, p2 = x :: xs := by
    cases p2 with
    | nil => exact absurd rfl hp2
    | cons x xs => exact ⟨x, xs, rfl⟩
  rw [mdScan_append p1]
  rw [show mdScan 1 p1 ⟨false, [], [], 0, [], []⟩ =
      ⟨false, [], p1, 1, htmlAll 1 p1, []⟩ from by
    rw [hp1e, mdScan_prose_nil l1 p1t 1 _ rfl rfl
      (fun x hx => hnf1 x (hp1e ▸ hx))]
    simp [← hp1e]]
  simp only [mdScan]
  rw [mdStep_fence_open_cons (1 + p1.length) openL
    ⟨false, [], p1, 1, htmlAll 1 p1, []⟩ tag rfl (by simpa using hp1) ho]
  rw [mdScan_append code]
  rw [mdScan_code code (1 + p1.length + 1) _ rfl hnfc]
  simp only [mdScan]
  rw [mdStep_fence_close_cons (1 + p1.length + 1 + code.length) closeL _
    tagc rfl (by simpa using hcode) hcl]
  rw [hp2e, mdScan_prose_nil m1 p2t (1 + p1.length + 1 + code.length + 1)
    _ rfl rfl (fun x hx => hnf2 x (hp2e ▸ hx)), ← hp2e]
  rw [show 1 + p1.length + 1 + code.length + 1 =
    p1.length + code.length + 3 from by omega]
  simp only [MdState.mk.injEq, List.nil_append, List.cons.injEq, and_true,
    true_and, List.append_nil]
  rw [show ((1 + p1.length : Nat) : Int) - 1 = ((p1.length : Nat) : Int)
      from by push_cast; ring,
    show ((1 + p1.length + 1 + code.length : Nat) : Int) - 1 =
      ((p1.length + code.length + 1 : Nat) : Int) from by push_cast; ring,
    show ((1 + p1.length : Nat) : Int) = ((p1.length + 1 : Nat) : Int)
      from by push_cast; ring,
    show ((1 : Nat) : Int) = (1 : Int) from by norm_num]
  simp

/-- C6: markdown content made of a prose paragraph, one fenced code
block and a second prose paragraph parses to exactly two prose
TextBlocks around one is_code TextBlock carrying the fence's language
tag, and injecting translations at the two prose indices leaves the
fence delimiter lines and every code line byte-identical. -/
theorem claim6_markdown_fence_exclusion
    (p1 code p2 : List Str) (openL closeL tag tagc : Str) (t0 t2 : Str)
    (hp1 : p1 ≠ []) (hcode : code ≠ []) (hp2 : p2 ≠ [])
    (hnf1 : ∀ l ∈ p1, mdFence l = none)
    (hnfc : ∀ l ∈ code, mdFence l = none)
    (hnf2 : ∀ l ∈ p2, mdFence l = none)
    (hnl : ∀ l ∈ p1 ++ openL :: (code ++ closeL :: p2), nlChar ∉ l)
    (ho : mdFence openL = some tag)
    (hcl : mdFence closeL = some tagc) :
    (mdParse (joinLines (p1 ++ openL :: (code ++ closeL :: p2)))).textBlocks
      = [mkTextBlock (joinLines p1) 1 (p1.length : Int) false [] [],
         mkTextBlock (joinLines code) ((p1.length + 1 : Nat) : Int)
           ((p1.length + code.length + 1 : Nat) : Int) true tag [],
         mkTextBlock (joinLines p2)
           ((p1.length + code.length + 3 : Nat) : Int)
           ((p1.length + code.length + p2.length + 2 : Nat) : Int)
           false [] []] ∧
    mdInject (joinLines (p1 ++ openL :: (code ++ closeL :: p2)))
      [((0 : Int), t0), ((2 : Int), t2)]
      (mdParse (joinLines (p1 ++ openL :: (code ++ closeL :: p2)))) =
      some (joinLines (splitLines t0 ++ openL ::
        (code ++ closeL :: splitLines t2))) := by
  have hLne : p1 ++ openL :: (code ++ closeL :: p2) ≠ [] := by
    cases p1 <;> simp
  have hsplit := splitLines_joinLines _ hLne hnl
  have hLlen : (p1 ++ openL :: (code ++ closeL :: p2)).length =
      p1.length + code.length + p2.length + 2 := by
    simp
    omega
  have hXp : p1 ++ openL :: (code ++ closeL :: p2) =
      (p1 ++ openL :: (code ++ [closeL])) ++ p2 := by
    simp
  have hparse : (mdParse (joinLines (p1 ++ openL ::
      (code ++ closeL :: p2)))).textBlocks =
      [mkTextBlock (joinLines p1) 1 (p1.length : Int) false [] [],
       mkTextBlock (joinLines code) ((p1.length + 1 : Nat) : Int)
         ((p1.length + code.length + 1 : Nat) : Int) true tag [],
       mkTextBlock (joinLines p2)
         ((p1.length + code.length + 3 : Nat) : Int)
         ((p1.length + code.length + p2.length + 2 : Nat) : Int)
         false [] []] := by
    simp only [mdParse, hsplit]
    rw [mdScan_c6 p1 code p2 openL closeL tag tagc hp1 hcode hp2 hnf1
      hnfc hnf2 ho hcl]
    rw [hLlen]
    simp [hp2]
  refine ⟨hparse, ?_⟩
  simp only [mdInject]
  rw [show sortDesc (([((0 : Int), t0), ((2 : Int), t2)]).map Prod.fst) =
    [2, 0] from rfl]
  rw [hsplit]
  rw [List.foldlM_cons]
  rw [show mdInjectStep [((0 : Int), t0), ((2 : Int), t2)]
      (mdParse (joinLines (p1 ++ openL :: (code ++ closeL :: p2))))
      (p1 ++ openL :: (code ++ closeL :: p2)) 2 =
      some ((p1 ++ openL :: (code ++ [closeL])) ++ splitLines t2) from by
    simp only [mdInjectStep, hparse]
    rw [if_neg (by norm_num)]
    rw [show pyIndex? [mkTextBlock (joinLines p1) 1 (p1.length : Int)
        false [] [],
       mkTextBlock (joinLines code) ((p1.length + 1 : Nat) : Int)
         ((p1.length + code.length + 1 : Nat) : Int) true tag [],
       mkTextBlock (joinLines p2)
         ((p1.length + code.length + 3 : Nat) : Int)
         ((p1.length + code.length + p2.length + 2 : Nat) : Int)
         false [] []] (2 : Int) =
      some (mkTextBlock (joinLines p2)
         ((p1.length + code.length + 3 : Nat) : Int)
         ((p1.length + code.length + p2.length + 2 : Nat) : Int)
         false [] []) from rfl]
    simp only [Option.bind_eq_bind, Option.some_bind, mkTextBlock,
      Bool.false_eq_true, if_false, List.nil_append]
    rw [show List.lookup (2 : Int) [((0 : Int), t0), ((2 : Int), t2)] =
      some t2 from rfl]
    simp only [Option.some_bind]
    rw [show ((p1.length + code.length + 3 : Nat) : Int) - 1 =
      ((p1.length + code.length + 2 : Nat) : Int) from by push_cast; ring]
    rw [pySliceAssign_nat _ (p1.length + code.length + 2)
      (p1.length + code.length + p2.length + 2) _ (by omega)
      (by rw [hLlen])]
    rw [show p1.length + code.length + p2.length + 2 =
      (p1 ++ openL :: (code ++ closeL :: p2)).length from hLlen.symm,
      List.drop_length]
    rw [show (p1 ++ openL :: (code ++ closeL :: p2)).take
        (p1.length + code.length + 2) =
        p1 ++ openL :: (code ++ [closeL]) from by
      rw [hXp, show p1.length + code.length + 2 =
        (p1 ++ openL :: (code ++ [closeL])).length from by simp; omega,
        List.take_left]]
    simp]
  simp only [Option.bind_eq_bind, Option.some_bind]
  rw [foldlM_singleton]
  rw [show mdInjectStep [((0 : Int), t0), ((2 : Int), t2)]
      (mdParse (joinLines (p1 ++ openL :: (code ++ closeL :: p2))))
      ((p1 ++ openL :: (code ++ [closeL])) ++ splitLines t2) 0 =
      some (splitLines t0 ++ (openL :: (code ++ [closeL]) ++
        splitLines t2)) from by
    simp only [mdInjectStep, hparse]
    rw [if_neg (by norm_num)]
    rw [show pyIndex? [mkTextBlock (joinLines p1) 1 (p1.length : Int)
        false [] [],
       mkTextBlock (joinLines code) ((p1.length + 1 : Nat) : Int)
         ((p1.length + code.length + 1 : Nat) : Int) true tag [],
       mkTextBlock (joinLines p2)
         ((p1.length + code.length + 3 : Nat) : Int)
         ((p1.length + code.length + p2.length + 2 : Nat) : Int)
         false [] []] (0 : Int) =
      some (mkTextBlock (joinLines p1) 1 (p1.length : Int) false [] [])
      from rfl]
    simp only [Option.bind_eq_bind, Option.some_bind, mkTextBlock,
      Bool.false_eq_true, if_false, List.nil_append]
    rw [show List.lookup (0 : Int) [((0 : Int), t0), ((2 : Int), t2)] =
      some t0 from rfl]
    simp only [Option.some_bind]
    rw [show (1 : Int) - 1 = ((0 : Nat) : Int) from by norm_num]
    rw [pySliceAssign_nat _ 0 p1.length _ (by omega) (by simp)]
    rw [show ((p1 ++ openL :: (code ++ [closeL])) ++ splitLines t2) =
      p1 ++ (openL :: (code ++ [closeL]) ++ splitLines t2) from by simp]
    rw [show p1.length = p1.length from rfl, List.drop_left]
    simp]
  simp only [Option.map_some']
  congr 1
  simp

/-- Witness for C6 at a concrete input: `intro` / fenced python block /
`outro`, translating only the prose indices 0 and 2. -/
theorem claim6_witness :
    (mdParse (joinLines (["intro".data] ++ "```python".data ::
      (["x = 1".data] ++ "```".data :: ["outro".data])))).textBlocks =
      [mkTextBlock (joinLines ["intro".data]) 1
         ((["intro".data] : List Str).length : Int) false [] [],
       mkTextBlock (joinLines ["x = 1".data])
         ((((["intro".data] : List Str).length + 1 : Nat)) : Int)
         ((((["intro".data] : List Str).length +
           (["x = 1".data] : List Str).length + 1 : Nat)) : Int)
         true ("python".data) [],
       mkTextBlock (joinLines ["outro".data])
         ((((["intro".data] : List Str).length +
           (["x = 1".data] : List Str).length + 3 : Nat)) : Int)
         ((((["intro".data] : List Str).length +
           (["x = 1".data] : List Str).length +
           (["outro".data] : List Str).length + 2 : Nat)) : Int)
         false [] []] ∧
    mdInject (joinLines (["intro".data] ++ "```python".data ::
      (["x = 1".data] ++ "```".data :: ["outro".data])))
      [((0 : Int), "T0".data), ((2 : Int), "T2a\nT2b".data)]
      (mdParse (joinLines (["intro".data] ++ "```python".data ::
        (["x = 1".data] ++ "```".data :: ["outro".data])))) =
      some (joinLines (splitLines ("T0".data) ++ "```python".data ::
        (["x = 1".data] ++ "```".data :: splitLines ("T2a\nT2b".data)))) :=
  claim6_markdown_fence_exclusion ["intro".data] ["x = 1".data]
    ["outro".data] ("```python".data) ("```".data) ("python".data) []
    ("T0".data) ("T2a\nT2b".data) (by decide) (by decide) (by decide)
    (by decide) (by decide) (by decide) (by decide) (by decide) (by decide)

theorem mdParse_c10 (p1 code : List Str) (openL tag : Str)
    (hcode : code ≠ [])
    (hnf1 : ∀ l ∈ p1, mdFence l = none)
    (hnfc : ∀ l ∈ code, mdFence l = none)
    (hnl : ∀ l ∈ p1 ++ openL :: code, nlChar ∉ l)
    (ho : mdFence openL = some tag) :
    (mdParse (joinLines (p1 ++ openL :: code))).textBlocks =
      (if p1 = [] then [] else
        [mkTextBlock (joinLines p1) 1 (p1.length : Int) false [] []]) ++
      [mkTextBlock (joinLines code) ((p1.length + 1 : Nat) : Int)
        ((p1.length + code.length + 1 : Nat) : Int) true tag []] := by
  have hLne : p1 ++ openL :: code ≠ [] := by cases p1 <;> simp
  have hsplit := splitLines_joinLines _ hLne hnl
  have hLlen : (p1 ++ openL :: code).length =
      p1.length + code.length + 1 := by
    simp
    omega
  by_cases hp1 : p1 = []
  · subst hp1
    have hsplit' : splitLines (joinLines (openL :: code)) =
        openL :: code := by simpa using hsplit
    simp only [mdParse, List.nil_append, hsplit']
    simp only [mdScan]
    rw [mdStep_fence_open_nil 1 openL ⟨false, [], [], 0, [], []⟩ tag rfl
      rfl ho]
    rw [mdScan_code code 2 _ rfl hnfc]
    rw [show ((openL :: code).length) = code.length + 1 from by simp]
    simp [hcode, mkTextBlock]
  · obtain ⟨l1, p1t, hp1e⟩ : ∃ x xs, p1 = x :: xs := by
      cases p1 with
      | nil => exact absurd rfl hp1
      | cons x xs => exact ⟨x, xs, rfl⟩
    simp only [mdParse, hsplit]
    rw [mdScan_append p1]
    rw [show mdScan 1 p1 ⟨false, [], [], 0, [], []⟩ =
        ⟨false, [], p1, 1, htmlAll 1 p1, []⟩ from by
      rw [hp1e, mdScan_prose_nil l1 p1t 1 _ rfl rfl
        (fun x hx => hnf1 x (hp1e ▸ hx))]
      simp [← hp1e]]
    simp only [mdScan]
    rw [mdStep_fence_open_cons (1 + p1.length) openL
      ⟨false, [], p1, 1, htmlAll 1 p1, []⟩ tag rfl (by simpa using hp1) ho]
    rw [mdScan_code code (1 + p1.length + 1) _ rfl hnfc]
    rw [hLlen]
    simp only [List.nil_append, if_neg hp1]
    simp [hcode, mkTextBlock]
    omega

/-- C10: markdown content ending inside an unclosed fence flushes the
trailing lines as a final is_code TextBlock carrying the opener's tag,
and no injection with distinct nonnegative keys ever modifies the fence
opener or the code lines. -/
theorem claim10_unclosed_fence_code (p1 code : List Str) (openL tag : Str)
    (tr : List (Int × Str))
    (hcode : code ≠ [])
    (hnf1 : ∀ l ∈ p1, mdFence l = none)
    (hnfc : ∀ l ∈ code, mdFence l = none)
    (hnl : ∀ l ∈ p1 ++ openL :: code, nlChar ∉ l)
    (ho : mdFence openL = some tag)
    (hnd : (tr.map Prod.fst).Nodup)
    (hpos : ∀ k ∈ tr.map Prod.fst, 0 ≤ k) :
    (mdParse (joinLines (p1 ++ openL :: code))).textBlocks.getLast? =
      some (mkTextBlock (joinLines code) ((p1.length + 1 : Nat) : Int)
        ((p1.length + code.length + 1 : Nat) : Int) true tag []) ∧
    ∃ pre, mdInject (joinLines (p1 ++ openL :: code)) tr
      (mdParse (joinLines (p1 ++ openL :: code))) =
      some (joinLines (pre ++ openL :: code)) := by
  have hT := mdParse_c10 p1 code openL tag hcode hnf1 hnfc hnl ho
  have hLne : p1 ++ openL :: code ≠ [] := by cases p1 <;> simp
  have hsplit := splitLines_joinLines _ hLne hnl
  constructor
  · rw [hT]
    by_cases hp1 : p1 = [] <;> simp [hp1]
  · by_cases hp1 : p1 = []
    · refine ⟨p1, ?_⟩
      have hT1 : (mdParse (joinLines (p1 ++ openL :: code))).textBlocks =
          [mkTextBlock (joinLines code) ((p1.length + 1 : Nat) : Int)
            ((p1.length + code.length + 1 : Nat) : Int) true tag []] := by
        rw [hT, if_pos hp1, List.nil_append]
      simp only [mdInject]
      rw [foldlM_noop]
      · rw [hsplit]
        rfl
      · intro b k hk
        have hk' : k ∈ tr.map Prod.fst := (sortDesc_perm _).mem_iff.mp hk
        have h0 : 0 ≤ k := hpos k hk'
        by_cases hk1 : (1 : Int) ≤ k
        · simp only [mdInjectStep, hT1]
          rw [if_pos (by simpa using hk1)]
        · have hk0 : k = 0 := by omega
          subst hk0
          simp only [mdInjectStep, hT1]
          rw [if_neg (by norm_num)]
          rw [show pyIndex? [mkTextBlock (joinLines code)
              ((p1.length + 1 : Nat) : Int)
              ((p1.length + code.length + 1 : Nat) : Int) true tag []]
              (0 : Int) =
            some (mkTextBlock (joinLines code)
              ((p1.length + 1 : Nat) : Int)
              ((p1.length + code.length + 1 : Nat) : Int) true tag [])
            from rfl]
          simp [mkTextBlock]
    · have hT2 : (mdParse (joinLines (p1 ++ openL :: code))).textBlocks =
          [mkTextBlock (joinLines p1) 1 (p1.length : Int) false [] [],
           mkTextBlock (joinLines code) ((p1.length + 1 : Nat) : Int)
            ((p1.length + code.length + 1 : Nat) : Int) true tag []] := by
        rw [hT, if_neg hp1]
        rfl
      have hnoop : ∀ (b : List Str) (k : Int),
          k ∈ sortDesc (tr.map Prod.fst) → k ≠ 0 →
          mdInjectStep tr
            (mdParse (joinLines (p1 ++ openL :: code))) b k = some b := by
        intro b k hk hkne
        have hk' : k ∈ tr.map Prod.fst := (sortDesc_perm _).mem_iff.mp hk
        have h0 : 0 ≤ k := hpos k hk'
        by_cases hk2 : (2 : Int) ≤ k
        · simp only [mdInjectStep, hT2]
          rw [if_pos (by simpa using hk2)]
        · have hk1 : k = 1 := by omega
          subst hk1
          simp only [mdInjectStep, hT2]
          rw [if_neg (by norm_num)]
          rw [show pyIndex? [mkTextBlock (joinLines p1) 1
              (p1.length : Int) false [] [],
             mkTextBlock (joinLines code) ((p1.length + 1 : Nat) : Int)
              ((p1.length + code.length + 1 : Nat) : Int) true tag []]
              (1 : Int) =
            some (mkTextBlock (joinLines code)
              ((p1.length + 1 : Nat) : Int)
              ((p1.length + code.length + 1 : Nat) : Int) true tag [])
            from rfl]
          simp [mkTextBlock]
      have hfold : mdInject (joinLines (p1 ++ openL :: code)) tr
          (mdParse (joinLines (p1 ++ openL :: code))) =
          Option.map joinLines
            (if (0 : Int) ∈ sortDesc (tr.map Prod.fst) then
              mdInjectStep tr
                (mdParse (joinLines (p1 ++ openL :: code)))
                (p1 ++ openL :: code) 0
            else some (p1 ++ openL :: code)) := by
        simp only [mdInject, hsplit]
        rw [foldlM_single _ 0 _ ((sortDesc_perm _).nodup_iff.mpr hnd)
          hnoop]
      by_cases h0 : (0 : Int) ∈ sortDesc (tr.map Prod.fst)
      · have h0' : (0 : Int) ∈ tr.map Prod.fst :=
          (sortDesc_perm _).mem_iff.mp h0
        obtain ⟨v, hv⟩ := lookup_of_mem_keys tr 0 h0'
        refine ⟨splitLines v, ?_⟩
        rw [hfold, if_pos h0]
        simp only [mdInjectStep, hT2]
        rw [if_neg (by norm_num)]
        rw [show pyIndex? [mkTextBlock (joinLines p1) 1
            (p1.length : Int) false [] [],
           mkTextBlock (joinLines code) ((p1.length + 1 : Nat) : Int)
            ((p1.length + code.length + 1 : Nat) : Int) true tag []]
            (0 : Int) =
          some (mkTextBlock (joinLines p1) 1 (p1.length : Int) false [] [])
          from rfl]
        simp only [Option.bind_eq_bind, Option.some_bind, mkTextBlock,
          Bool.false_eq_true, if_false, List.nil_append]
        rw [hv]
        simp only [Option.some_bind]
        rw [show (1 : Int) - 1 = ((0 : Nat) : Int) from by norm_num]
        rw [pySliceAssign_nat _ 0 p1.length _ (by omega) (by simp)]
        rw [List.drop_left]
        simp
      · exact ⟨p1, by rw [hfold, if_neg h0]; rfl⟩

/-- Witness for C10 at a concrete input: prose line, unclosed ```c fence,
two trailing code lines, translating prose index 0. -/
theorem claim10_witness :
    (mdParse (joinLines (["p".data] ++ "```c".data ::
      ["code1".data, "code2".data]))).textBlocks.getLast? =
      some (mkTextBlock (joinLines ["code1".data, "code2".data])
        ((((["p".data] : List Str).length + 1 : Nat)) : Int)
        ((((["p".data] : List Str).length +
          (["code1".data, "code2".data] : List Str).length + 1 : Nat))
          : Int) true ("c".data) []) ∧
    ∃ pre, mdInject (joinLines (["p".data] ++ "```c".data ::
        ["code1".data, "code2".data])) [((0 : Int), "TP".data)]
      (mdParse (joinLines (["p".data] ++ "```c".data ::
        ["code1".data, "code2".data]))) =
      some (joinLines (pre ++ "```c".data ::
        ["code1".data, "code2".data])) :=
  claim10_unclosed_fence_code ["p".data] ["code1".data, "code2".data]
    ("```c".data) ("c".data) [((0 : Int), "TP".data)] (by decide)
    (by decide) (by decide) (by decide) (by decide) (by decide) (by decide)
